import Mathlib

set_option maxRecDepth 4096

/-!
Verification development for the MediaTypes registry (JadsonLucena/MediaTypes.js):
a shallow embedding, in Lean 4, of the registry synchronization and merge engine
from `MediaTypes.js`, together with theorems settling the specification claims.

Strings are modelled as `List Char` (`Str`), JavaScript objects whose values are
arrays of strings as association lists whose values are `Option (List Str)`
(`none` models the JavaScript value `undefined`), and thrown exceptions with an
explicit result type `JsResult`.
-/

abbrev Str := List Char

/-- Characters matched by the JavaScript regex class `\s` (ASCII range), which is
also what `String.prototype.trim` removes at the ends of ASCII strings:
space, tab, newline, carriage return, vertical tab, form feed. -/
def isWsChar (c : Char) : Bool :=
  c = ' ' || c = '\t' || c = '\n' || c = '\r' || c = '\x0b' || c = '\x0c'

/-- ASCII lowercasing of one character, as `String.prototype.toLowerCase` acts on
the ASCII range (code points 65–90 map to 97–122, everything else unchanged). -/
def lowerChar (c : Char) : Char :=
  if 65 ≤ c.toNat ∧ c.toNat ≤ 90 then Char.ofNat (c.toNat + 32) else c

/-- `s.toLowerCase()` on ASCII strings. -/
def jsLower (s : Str) : Str := s.map lowerChar

/-- Drop leading whitespace (the left half of `s.trim()`). -/
def trimLeft (s : Str) : Str := s.dropWhile isWsChar

/-- Drop trailing whitespace (the right half of `s.trim()`), implemented
recursively to keep proofs by structural induction. -/
def trimRight (s : Str) : Str :=
  s.foldr (fun c acc => if acc = [] ∧ isWsChar c then [] else c :: acc) []

/-- `s.trim()` on ASCII strings. -/
def jsTrim (s : Str) : Str := trimRight (trimLeft s)

/-- The normalization `s.trim().toLowerCase()` applied throughout `MediaTypes.js`
to extensions and media types. -/
def normTok (s : Str) : Str := jsLower (jsTrim s)

/-- Lexicographic code-unit comparison of two strings: the order used by
JavaScript `Array.prototype.sort()` with no comparator (for arrays of strings
without surrogate pairs). -/
def strLt : Str → Str → Bool
  | _, [] => false
  | [], _ :: _ => true
  | a :: as, b :: bs =>
    if a.toNat < b.toNat then true
    else if b.toNat < a.toNat then false
    else strLt as bs

def strLe (a b : Str) : Bool := !(strLt b a)

/-- Insert into a sorted list, keeping earlier equal elements first (stability). -/
def insertStr (x : Str) : List Str → List Str
  | [] => [x]
  | y :: ys => if strLe x y then x :: y :: ys else y :: insertStr x ys

/-- `arr.sort()` for an array of strings: the unique stable sort by `strLe`. -/
def sortStrs (l : List Str) : List Str := l.foldr insertStr []

/-- Decidable sortedness by `strLe`. -/
def sortedStrs : List Str → Bool
  | [] => true
  | [_] => true
  | a :: b :: r => strLe a b && sortedStrs (b :: r)

/-- `[a-z0-9]` under the regex `i` flag: ASCII letter (either case) or digit. -/
def tokAlnum (c : Char) : Bool :=
  (97 ≤ c.toNat && c.toNat ≤ 122) || (65 ≤ c.toNat && c.toNat ≤ 90) ||
    (48 ≤ c.toNat && c.toNat ≤ 57)

/-- The punctuation characters of the class `[a-z0-9!#$&\-^_+]`. -/
def symChars : List Char := ['!', '#', '$', '&', '-', '^', '_', '+']

/-- One character of the extension class `[a-z0-9!#$&\-^_+]` (with the `i` flag). -/
def extChar (c : Char) : Bool := tokAlnum c || symChars.contains c

/-- One character of the subtype class `[a-z0-9!#$&\-^_.+]` (with the `i` flag). -/
def subtypeChar (c : Char) : Bool := extChar c || c = '.'

/-- `#formatExtension = /^[a-z0-9!#$&\-^_+]+$/i` from `MediaTypes.js`. -/
def formatExtension (s : Str) : Bool := !s.isEmpty && s.all extChar

/-- The `x-[a-z0-9]{1,62}` alternative of the type group (the `x` is
case-insensitive under the `i` flag). -/
def xPrefixed : Str → Bool
  | c :: d :: rest =>
    (c = 'x' || c = 'X') && d = '-' && decide (1 ≤ rest.length) &&
      decide (rest.length ≤ 62) && rest.all tokAlnum
  | _ => false

/-- The type group `(x-[a-z0-9]{1,62}|[a-z0-9]{1,64})` of `#formatMediaType`. -/
def formatType (s : Str) : Bool :=
  xPrefixed s ||
    (decide (1 ≤ s.length) && decide (s.length ≤ 64) && s.all tokAlnum)

/-- `#formatMediaType = /^(?<type>(x-[a-z0-9]{1,62}|[a-z0-9]{1,64}))\/(?<subtype>[a-z0-9!#$&\-^_.+]{1,64})$/i`
from `MediaTypes.js`.  The anchored pattern splits the candidate at its single
`/` (neither character class contains `/`); note it has no room for parameters
(`;charset=...`): `;` and `=` are in neither class. -/
def formatMediaType (s : Str) : Bool :=
  match s.dropWhile (fun c => c ≠ '/') with
  | '/' :: sub =>
    formatType (s.takeWhile (fun c => c ≠ '/')) &&
      decide (1 ≤ sub.length) && decide (sub.length ≤ 64) && sub.all subtypeChar
  | _ => false

-- Sanity instances (removed in spirit; kept as compiled facts used nowhere):
example : formatMediaType "text/plain".data = true := by decide
example : formatMediaType "TEXT/Plain".data = true := by decide
example : formatMediaType "x-conference/x-cooltalk".data = true := by decide
example : formatMediaType "text/plain;charset=utf-8".data = false := by decide
example : formatExtension "txt".data = true := by decide
example : formatExtension "TXT".data = true := by decide
example : formatExtension "".data = false := by decide
example : normTok "  TeXT/PlAin ".data = "text/plain".data := by decide
example : sortStrs ["b".data, "a".data, "c".data] = ["a".data, "b".data, "c".data] := by decide

/-! ## JavaScript values, errors and objects -/

/-- The error classes thrown by `MediaTypes.js`: `typeError` models `TypeError`,
`malformedError` models `SyntaxError`. -/
inductive ErrKind
  | typeError
  | malformedError
deriving DecidableEq, Repr

structure JsErr where
  kind : ErrKind
  msg : Str
deriving DecidableEq, Repr

/-- A (possibly thrown) result of a JavaScript computation. -/
inductive JsResult (α : Type)
  | ok (a : α)
  | thrown (e : JsErr)
deriving DecidableEq, Repr

/-- The dynamically typed arguments a caller can pass: a string, or any
non-string value (number, boolean, null, undefined, object) — the code only
ever distinguishes `typeof x !== 'string'`. -/
inductive JsValue
  | jstr (s : Str)
  | jnum (n : Int)
  | jbool (b : Bool)
  | jnull
  | jundef
deriving DecidableEq, Repr

/-- A JavaScript object whose property values are arrays of strings;
`none` models the value `undefined` stored under a present key. -/
abbrev JObj := List (Str × Option (List Str))

/-- `obj[k]`: `none` = key absent (reads as `undefined`), `some none` = key
present with value `undefined`, `some (some l)` = key present with array `l`. -/
def lookupA (o : JObj) (k : Str) : Option (Option (List Str)) :=
  (o.find? (fun kv => kv.1 == k)).map Prod.snd

/-- `k in obj`: key presence (true even when the stored value is `undefined`). -/
def memKey (o : JObj) (k : Str) : Bool := (o.find? (fun kv => kv.1 == k)).isSome

/-- `obj[k] = v`: overwrite the key's single slot in place if it exists, else
append (JavaScript objects preserve string-key insertion order). -/
def setA : JObj → Str → Option (List Str) → JObj
  | [], k, v => [(k, v)]
  | (a, b) :: o, k, v => if a == k then (k, v) :: o else (a, b) :: setA o k v

/-- Every stored value is a real array (no `undefined` values): the shape every
registry reachable without the uppercase-`set` slip has. -/
def wfObj (o : JObj) : Bool := o.all (fun kv => kv.2.isSome)

/-- The `TypeError` raised when the code reads a property of `undefined`
(`content[extension].forEach` / `.includes` on an `undefined` entry). -/
def undefErr : JsErr := ⟨.typeError, "Cannot read properties of undefined".data⟩

/-! ## `#updateList` (MediaTypes.js lines 57–79)

```
#updateList = content => {
  const list = {}
  for (let extension in content) {
    extension = extension.trim().toLowerCase()
    if (extension in this.#mediaTypes) {
      content[extension].forEach(mediaType => {
        mediaType = mediaType.trim().toLowerCase()
        if (!this.#mediaTypes[extension].includes(mediaType)) {
          this.#mediaTypes[extension] = this.#mediaTypes[extension].concat(mediaType).sort()
          list[extension] = (list[extension] || []).concat(mediaType)
        }
      })
    } else {
      list[extension] = this.#mediaTypes[extension] = content[extension]
    }
  }
  return list
}
```
Note `content[extension]` is indexed with the *reassigned* (normalized)
extension, so a content key that is not already lowercase reads `undefined`. -/

/-- Result of `#updateList`: the mutated registry and the delta object `list`;
a throw carries the registry as already mutated by earlier iterations. -/
inductive ULRes
  | ok (reg : JObj) (delta : JObj)
  | thrown (e : JsErr) (reg : JObj)
deriving DecidableEq, Repr

/-- The inner `content[extension].forEach(mediaType => ...)` loop for one
extension key. -/
def mergeTypes (ext : Str) : JObj → JObj → List Str → ULRes
  | reg, delta, [] => .ok reg delta
  | reg, delta, m :: rest =>
    let m' := normTok m
    match lookupA reg ext with
    | some (some l) =>
      if l.contains m' then mergeTypes ext reg delta rest
      else
        mergeTypes ext (setA reg ext (some (sortStrs (l ++ [m']))))
          (setA delta ext (some ((lookupA delta ext).join.getD [] ++ [m']))) rest
    | _ => .thrown undefErr reg

/-- The `for (let extension in content)` loop, processing keys in insertion
order while threading the mutating registry and the `list` delta. -/
def updateListGo (content : JObj) : JObj → JObj → List (Str × Option (List Str)) → ULRes
  | reg, delta, [] => .ok reg delta
  | reg, delta, (k, _) :: rest =>
    let ext := normTok k
    if memKey reg ext then
      match lookupA content ext with
      | some (some arr) =>
        match mergeTypes ext reg delta arr with
        | .ok reg' delta' => updateListGo content reg' delta' rest
        | .thrown e reg' => .thrown e reg'
      | _ => .thrown undefErr reg
    else
      updateListGo content (setA reg ext (lookupA content ext).join)
        (setA delta ext (lookupA content ext).join) rest

/-- `this.#updateList(content)` acting on registry `reg`. -/
def updateList (reg : JObj) (content : JObj) : ULRes :=
  updateListGo content reg [] content

example :
    updateList [("txt".data, some ["text/plain".data])]
      [("txt".data, some ["image/png".data])] =
      .ok [("txt".data, some ["image/png".data, "text/plain".data])]
        [("txt".data, some ["image/png".data])] := by decide
example :
    updateList [] [("txt".data, some ["text/plain".data])] =
      .ok [("txt".data, some ["text/plain".data])]
        [("txt".data, some ["text/plain".data])] := by decide
-- uppercase content key: `content["txt"]` is undefined, so the key is created
-- with value undefined
example :
    updateList [] [("TXT".data, some ["text/plain".data])] =
      .ok [("txt".data, none)] [("txt".data, none)] := by decide
-- uppercase content key over an existing lowercase registry key: throws
example :
    updateList [("txt".data, some ["text/plain".data])]
      [("TXT".data, some ["text/plain".data])] =
      .thrown undefErr [("txt".data, some ["text/plain".data])] := by decide

/-! ## The registry state and the manual operations -/

/-- The per-instance state: `#mediaTypes` and `#versions` (one stored version
token per source; `''` after a fresh start). -/
structure MTState where
  mediaTypes : JObj
  vApache : Str
  vDebian : Str
  vNginx : Str
deriving DecidableEq, Repr

def MTState.wf (st : MTState) : Bool := wfObj st.mediaTypes

/-- Outcome of a manual mutation: the new state, the returned boolean, and
whether `DB.json` was written. -/
structure MutOut where
  state : MTState
  ret : Bool
  wrote : Bool
deriving DecidableEq, Repr

/-- `set = (extension, mediaType) => { ... }` (MediaTypes.js lines 351–379):
validate the extension (TypeError for non-string, SyntaxError otherwise
invalid), then the media type, merge the one-key content object through
`#updateList`, and report `extension in list` — with the *raw* extension. -/
def jsSet (st : MTState) (extension mediaType : JsValue) : JsResult MutOut :=
  match extension with
  | .jstr ext =>
    if !formatExtension ext then .thrown ⟨.malformedError, "Invalid extension".data⟩
    else
      match mediaType with
      | .jstr mt =>
        if !formatMediaType mt then .thrown ⟨.malformedError, "Invalid mediaType".data⟩
        else
          match updateList st.mediaTypes [(ext, some [mt])] with
          | .thrown e _ => .thrown e
          | .ok reg delta =>
            if !memKey delta ext then .ok ⟨{ st with mediaTypes := reg }, false, false⟩
            else .ok ⟨{ st with mediaTypes := reg }, true, true⟩
      | _ => .thrown ⟨.typeError, "Invalid mediaType".data⟩
  | _ => .thrown ⟨.typeError, "Invalid extension".data⟩

/-- Remove the key `k` entirely (`delete obj[k]`). -/
def delKey (o : JObj) (k : Str) : JObj := o.filter (fun kv => kv.1 != k)

/-- `delete = (extension, mediaType) => { ... }` (MediaTypes.js lines 393–430):
validate both arguments (extension first; it is lowercased *before* the
media-type checks), return false if the extension key or the exact normalized
media type is absent, otherwise splice out the first occurrence, drop the key
if its array became empty, persist, and return true. -/
def jsDelete (st : MTState) (extension mediaType : JsValue) : JsResult MutOut :=
  match extension with
  | .jstr ext0 =>
    if !formatExtension ext0 then .thrown ⟨.malformedError, "Invalid extension".data⟩
    else
      let ext := normTok ext0
      match mediaType with
      | .jstr mt =>
        if !formatMediaType mt then .thrown ⟨.malformedError, "Invalid mediaType".data⟩
        else
          match lookupA st.mediaTypes ext with
          | none => .ok ⟨st, false, false⟩
          | some none => .thrown undefErr
          | some (some l) =>
            let m' := normTok mt
            if !l.contains m' then .ok ⟨st, false, false⟩
            else
              let l' := l.erase m'
              let reg :=
                if l'.isEmpty then delKey st.mediaTypes ext
                else setA st.mediaTypes ext (some l')
              .ok ⟨{ st with mediaTypes := reg }, true, true⟩
      | _ => .thrown ⟨.typeError, "Invalid mediaType".data⟩
  | _ => .thrown ⟨.typeError, "Invalid extension".data⟩

/-! ## `path.parse(path).ext` (Node.js posix) and `get`

`get` derives the extension via `parse(path).ext.replace('.', '').trim().toLowerCase()`
(MediaTypes.js lines 324–337).  `posixExt` reproduces the extension scan of
Node's `path.posix.parse`: walk the string backwards over the final path
component tracking the last `.`, the component end, and whether a non-dot
character precedes the dot (`preDotState`), then cut the extension unless the
component has no dot, starts with its only dot (dotfiles), or is `..`. -/

structure ExtScan where
  startDot : Option Nat
  startPart : Nat
  compEnd : Option Nat
  matchedSlash : Bool
  preDotState : Int
deriving Repr

def extScanInit : ExtScan := ⟨none, 0, none, true, 0⟩

/-- One step of the backward scan at index `i`; the returned flag is true when
the loop breaks (a `/` after the final component was reached). -/
def extStep (cs : Str) (i : Nat) (st : ExtScan) : ExtScan × Bool :=
  let c := cs.getD i ' '
  if c = '/' then
    if st.matchedSlash then (st, false)
    else ({ st with startPart := i + 1 }, true)
  else
    let st :=
      if st.compEnd.isNone then { st with matchedSlash := false, compEnd := some (i + 1) }
      else st
    let st :=
      if c = '.' then
        if st.startDot.isNone then { st with startDot := some i }
        else if st.preDotState ≠ 1 then { st with preDotState := 1 }
        else st
      else if st.startDot.isSome then { st with preDotState := -1 }
      else st
    (st, false)

/-- The backward loop `for (let i = path.length - 1; i >= start; --i)`. -/
def extLoop (cs : Str) (start : Nat) : Nat → ExtScan → ExtScan
  | 0, st => if start = 0 then (extStep cs 0 st).1 else st
  | i + 1, st =>
    if i + 1 < start then st
    else
      match extStep cs (i + 1) st with
      | (st', true) => st'
      | (st', false) => extLoop cs start i st'

/-- `path.posix.parse(path).ext`. -/
def posixExt (path : Str) : Str :=
  match path with
  | [] => []
  | c0 :: _ =>
    let start := if c0 = '/' then 1 else 0
    let st := extLoop path start (path.length - 1) extScanInit
    match st.compEnd, st.startDot with
    | some e, some sd =>
      if st.preDotState = 0 ∨
          (st.preDotState = 1 ∧ sd + 1 = e ∧ sd = st.startPart + 1) then []
      else ((path.drop sd).take (e - sd))
    | _, _ => []

/-- `ext.replace('.', '')`: JavaScript `replace` with a string pattern removes
only the first occurrence. -/
def removeFirstDot : Str → Str
  | [] => []
  | c :: r => if c = '.' then r else c :: removeFirstDot r

/-- `get = path => { ... }` (MediaTypes.js lines 324–337). -/
def jsGet (st : MTState) (path : JsValue) : JsResult (List Str) :=
  match path with
  | .jstr p =>
    let extension := normTok (removeFirstDot (posixExt p))
    if !formatExtension extension then .thrown ⟨.malformedError, "Invalid extension".data⟩
    else .ok ((lookupA st.mediaTypes extension).join.getD [])
  | _ => .thrown ⟨.typeError, "Invalid path".data⟩

example : posixExt "fileName.".data = ".".data := by decide
example : posixExt "a/b/file.txt".data = ".txt".data := by decide
example : posixExt ".bashrc".data = "".data := by decide
example : posixExt "..".data = "".data := by decide
example : posixExt "a.b.c".data = ".c".data := by decide
example : posixExt "noext".data = "".data := by decide
example : posixExt "/abs/x.JPG".data = ".JPG".data := by decide
example : posixExt "dir.d/plain".data = "".data := by decide
example : posixExt "a..".data = ".".data := by decide

/-! ## Source parsers (`#loadApache` / `#loadDebian` / `#loadNGINX`) -/

/-- `s.split(/\s+/)`: tokens separated by maximal whitespace runs; a leading or
trailing run contributes an empty token at that end, and `'' → ['']`. -/
def splitWs (s : Str) : List Str :=
  (s.foldl
    (fun (acc : List Str × Bool) c =>
      if isWsChar c then
        if acc.2 then acc else ([] :: acc.1, true)
      else
        match acc.1 with
        | t :: r => ((t ++ [c]) :: r, false)
        | [] => ([[c]], false))
    ([[]], false)).1.reverse

example : splitWs " a  b ".data = ["".data, "a".data, "b".data, "".data] := by decide
example : splitWs "".data = ["".data] := by decide

/-- `body.split(/\n+/)`: splitting on single newlines is equivalent up to empty
segments, which the comment/blank filter removes anyway. -/
def splitNl (s : Str) : List Str :=
  s.foldr
    (fun c acc =>
      if c = '\n' then [] :: acc
      else
        match acc with
        | h :: t => (c :: h) :: t
        | [] => [[c]])
    [[]]

/-- The line regex `^\s*(?<mediaType>[^\s]+)\s+(?<extensions>.*)\s*$`: the first
whitespace-free token and the remainder after the following whitespace run;
`none` when the line has no token or nothing after it (the code then tests the
regex against the string `"undefined"`, which fails `#formatMediaType`). -/
def parseLine (l : Str) : Option (Str × Str) :=
  let afterLead := l.dropWhile isWsChar
  let tok := afterLead.takeWhile (fun c => !isWsChar c)
  let rest := afterLead.dropWhile (fun c => !isWsChar c)
  if tok = [] then none
  else
    match rest with
    | [] => none
    | _ => some (tok, rest.dropWhile isWsChar)

/-- Insert one `(extension, mediaType)` association into the accumulating
fragment: `curr[extension] = (curr[extension] || []).concat(mediaType)`. -/
def pushAssoc (curr : List (Str × List Str)) (k : Str) (v : Str) : List (Str × List Str) :=
  if (curr.find? (fun kv => kv.1 == k)).isSome then
    curr.map (fun kv => if kv.1 == k then (kv.1, kv.2 ++ [v]) else kv)
  else curr ++ [(k, [v])]

/-- The `reduce` body applied to one line: validate the media type, then each
whitespace-separated candidate extension independently. -/
def lineStep (curr : List (Str × List Str)) (l : Str) : List (Str × List Str) :=
  match parseLine l with
  | none => curr
  | some (mtRaw, extsStr) =>
    let mt := normTok mtRaw
    if formatMediaType mt then
      (splitWs extsStr).foldl
        (fun c e =>
          let e' := normTok e
          if formatExtension e' then pushAssoc c e' mt else c)
        curr
    else curr

/-- The whole Apache/Debian table parse: split into lines, drop comment lines
(leading `#`) and blank lines, and fold the line parser. -/
def parseTable (body : Str) : List (Str × List Str) :=
  ((splitNl body).filter
    (fun l => !(l.head? = some '#') && !(jsTrim l == []))).foldl lineStep []

/-- A fetched response as the loaders see it: the `etag` response header
(`none` models a missing header, read as `null`) and the body text. -/
structure FullRes where
  etag : Option Str
  body : Str
deriving DecidableEq, Repr

structure LoadRes where
  version : Option Str
  content : List (Str × List Str)
deriving DecidableEq, Repr

/-- `#loadApache` (MediaTypes.js lines 81–102). -/
def loadApache (r : FullRes) : LoadRes := ⟨r.etag, parseTable r.body⟩

/-- `#loadDebian` delegates to `#loadApache` (lines 104–106). -/
def loadDebian (r : FullRes) : LoadRes := loadApache r

/-- Match `\s*types\s*{\s*` at the start of `s` (the `types` is
case-insensitive), returning the remainder after the match. -/
def matchTypesOpen (s : Str) : Option Str :=
  match (s.dropWhile isWsChar).map lowerChar, s.dropWhile isWsChar with
  | 't' :: 'y' :: 'p' :: 'e' :: 's' :: _, orig =>
    let afterWord := orig.drop 5
    let atBrace := afterWord.dropWhile isWsChar
    match atBrace with
    | '{' :: rest => some (rest.dropWhile isWsChar)
    | _ => none
  | _, _ => none

/-- Match `\s*}\s*` at the start of `s`, returning the remainder. -/
def matchCloseBrace (s : Str) : Option Str :=
  match s.dropWhile isWsChar with
  | '}' :: rest => some (rest.dropWhile isWsChar)
  | _ => none

/-- The global replace
`body.replace(/(\s*types\s*{\s*|\s*}\s*|;)/ig, '')` of `#loadNGINX`: scan left
to right; at each position try the three alternatives in order and drop the
(always non-empty) match, else keep the character.  Fuel is the remaining
length, which every step strictly decreases. -/
def nginxStripGo : Nat → Str → Str
  | 0, s => s
  | fuel + 1, s =>
    match s with
    | [] => []
    | c :: rest =>
      match matchTypesOpen s with
      | some r => nginxStripGo fuel r
      | none =>
        match matchCloseBrace s with
        | some r => nginxStripGo fuel r
        | none =>
          if c = ';' then nginxStripGo fuel rest
          else c :: nginxStripGo fuel rest

def nginxStrip (s : Str) : Str := nginxStripGo s.length s

/-- `#loadNGINX` (MediaTypes.js lines 108–129): strip the block syntax and
statement terminators, then parse the same table shape. -/
def loadNGINX (r : FullRes) : LoadRes := ⟨r.etag, parseTable (nginxStrip r.body)⟩

example :
    parseTable "# comment\ntext/plain  txt  text\nimage/jpeg jpeg jpg\n".data =
      [("txt".data, ["text/plain".data]), ("text".data, ["text/plain".data]),
        ("jpeg".data, ["image/jpeg".data]), ("jpg".data, ["image/jpeg".data])] := by decide
example :
    nginxStrip "types \x7b\n  text/html html;\n\x7d".data = "text/html html".data := by decide
example :
    (loadNGINX ⟨some "v1".data,
        "types \x7b\n  text/html html;\n  image/png png;\n\x7d".data⟩).content =
      [("html".data, ["text/html".data]), ("png".data, ["image/png".data])] := by decide
-- a malformed line is dropped without aborting the parse
example :
    parseTable "bad_line_no_slash abc\nimage/jpeg jpeg\n".data =
      [("jpeg".data, ["image/jpeg".data])] := by decide

/-! ## The synchronization cycle (`update`, MediaTypes.js lines 139–252) -/

/-- The result of the lightweight `HEAD` probe of one source. -/
structure ProbeRes where
  status : Nat
  etag : Option Str
deriving DecidableEq, Repr

/-- The network inputs of one source for one cycle: `none` models a rejected
promise.  `full` is what the body fetch would deliver, consulted only when the
probe decides to fetch. -/
structure SrcInput where
  probe : Option ProbeRes
  full : Option FullRes
deriving DecidableEq, Repr

/-- The probe gate of the `.then` callback:
`res.status === 200 && (Boolean(force) || (res.headers.get('etag') && res.headers.get('etag') !== stored))`.
A missing (`null`) or empty etag is falsy, so without `force` it never triggers
a body fetch. -/
def wantsBody (force : Bool) (stored : Str) (p : ProbeRes) : Bool :=
  p.status == 200 &&
    (force ||
      (match p.etag with
        | some t => !t.isEmpty && t != stored
        | none => false))

/-- The settled value of one source's chained promise under
`Promise.allSettled`: rejected (probe or body fetch failed), fulfilled with
`undefined` (probe declined), or fulfilled with the body response. -/
inductive SettledVal
  | rejected
  | skipped
  | fetched (r : FullRes)
deriving DecidableEq, Repr

def settle (force : Bool) (stored : Str) (inp : SrcInput) : SettledVal :=
  match inp.probe with
  | none => .rejected
  | some p =>
    if wantsBody force stored p then
      match inp.full with
      | none => .rejected
      | some f => .fetched f
    else .skipped

/-- Lift a parsed fragment's content into a JavaScript object. -/
def toJObj (c : List (Str × List Str)) : JObj := c.map (fun kv => (kv.1, some kv.2))

/-- The per-source acceptance branch of `update`
(`if (load.version && Object.keys(load.content).length)`): on acceptance the
stored version token is assigned *before* the merge, then the fragment is
merged through `#updateList`. -/
def mergeSource (st : MTState) (sv : SettledVal) (load : FullRes → LoadRes)
    (setVer : MTState → Str → MTState) : JsResult (MTState × Option JObj) :=
  match sv with
  | .fetched r =>
    let ld := load r
    match ld.version with
    | some v =>
      if !v.isEmpty && !ld.content.isEmpty then
        let st1 := setVer st v
        match updateList st1.mediaTypes (toJObj ld.content) with
        | .ok reg delta => .ok ({ st1 with mediaTypes := reg }, some delta)
        | .thrown e _ => .thrown e
      else .ok (st, none)
    | none => .ok (st, none)
  | _ => .ok (st, none)

/-- `[...new Set(arr)]`: first-occurrence deduplication. -/
def dedupeKeep (l : List Str) : List Str :=
  l.foldl (fun acc x => if acc.contains x then acc else acc ++ [x]) []

def aggLookup (o : List (Str × List Str)) (k : Str) : Option (List Str) :=
  (o.find? (fun kv => kv.1 == k)).map Prod.snd

def aggSet (o : List (Str × List Str)) (k : Str) (v : List Str) : List (Str × List Str) :=
  if (o.find? (fun kv => kv.1 == k)).isSome then
    o.map (fun kv => if kv.1 == k then (k, v) else kv)
  else o ++ [(k, v)]

/-- The final aggregation
`list = Object.keys(list).reduce((acc, cur) => { ... })`: union the per-source
deltas key by key, deduplicating while preserving first-occurrence order.
(The deltas produced inside `update` always carry real arrays, so the
`undefined` case of a delta value cannot arise here; it is read as `[]`.) -/
def aggregateDeltas (srcs : List JObj) : List (Str × List Str) :=
  srcs.foldl
    (fun acc content =>
      content.foldl
        (fun acc kv =>
          aggSet acc kv.1 (dedupeKeep ((aggLookup acc kv.1).getD [] ++ (kv.2.getD []))))
        acc)
    []

/-- Outcome of one synchronization cycle: final state, whether `DB.json` was
written, the payload of the `'update'` event if one was emitted, and the
resolved value (`none` models the `null` of an empty cycle). -/
structure UpdateOut where
  state : MTState
  wrote : Bool
  emitted : Option (List (Str × List Str))
  result : Option (List (Str × List Str))
deriving DecidableEq, Repr

/-- `update = (force = false) => ...` (MediaTypes.js lines 139–252): settle the
three probe/fetch chains, fold the accepted fragments into the registry in
source order (apache, debian, nginx), and — only when at least one source was
accepted — persist the snapshot and emit the aggregated delta; otherwise
resolve to `null` without persisting or emitting. -/
def update (force : Bool) (inA inD inN : SrcInput) (st : MTState) : JsResult UpdateOut :=
  match mergeSource st (settle force st.vApache inA) loadApache
      (fun s v => { s with vApache := v }) with
  | .thrown e => .thrown e
  | .ok (st1, dA) =>
    match mergeSource st1 (settle force st.vDebian inD) loadDebian
        (fun s v => { s with vDebian := v }) with
    | .thrown e => .thrown e
    | .ok (st2, dD) =>
      match mergeSource st2 (settle force st.vNginx inN) loadNGINX
          (fun s v => { s with vNginx := v }) with
      | .thrown e => .thrown e
      | .ok (st3, dN) =>
        let deltas := [dA, dD, dN].filterMap id
        if deltas.isEmpty then .ok ⟨st3, false, none, none⟩
        else
          let agg := aggregateDeltas deltas
          .ok ⟨st3, true, some agg, some agg⟩

-- One full happy-path cycle: a fresh apache fragment is merged and reported.
example :
    update false
      ⟨some ⟨200, some "a1".data⟩, some ⟨some "a1".data, "image/jpeg jpeg jpg".data⟩⟩
      ⟨some ⟨200, some "d0".data⟩, none⟩
      ⟨some ⟨200, some "n0".data⟩, none⟩
      ⟨[], "a0".data, "d0".data, "n0".data⟩ =
      .ok ⟨⟨[("jpeg".data, some ["image/jpeg".data]), ("jpg".data, some ["image/jpeg".data])],
        "a1".data, "d0".data, "n0".data⟩, true,
        some [("jpeg".data, ["image/jpeg".data]), ("jpg".data, ["image/jpeg".data])],
        some [("jpeg".data, ["image/jpeg".data]), ("jpg".data, ["image/jpeg".data])]⟩ := by
  decide

/-! ## Character and normalization lemmas -/

theorem char_toNat_ofNat_valid (n : Nat) (h1 : n < 0xd800) : (Char.ofNat n).toNat = n := by
  unfold Char.ofNat
  rw [dif_pos (Or.inl h1)]
  simp [Char.ofNatAux, Char.toNat, UInt32.toNat, UInt32.ofNatCore]

theorem char_ne_of_toNat_ne {c d : Char} (h : c.toNat ≠ d.toNat) : c ≠ d :=
  fun e => h (congrArg Char.toNat e)

theorem lowerChar_idem (c : Char) : lowerChar (lowerChar c) = lowerChar c := by
  unfold lowerChar
  by_cases h : 65 ≤ c.toNat ∧ c.toNat ≤ 90
  · rw [if_pos h]
    have h2 : (Char.ofNat (c.toNat + 32)).toNat = c.toNat + 32 :=
      char_toNat_ofNat_valid _ (by omega)
    rw [if_neg (by omega)]
  · rw [if_neg h, if_neg h]

theorem isWs_false_of_toNat_large {c : Char} (h : 33 ≤ c.toNat) : isWsChar c = false := by
  have hne : ∀ d : Char, d.toNat < 33 → decide (c = d) = false := by
    intro d hd
    exact decide_eq_false (char_ne_of_toNat_ne (by omega))
  simp only [isWsChar, hne ' ' (by decide), hne '\t' (by decide), hne '\n' (by decide),
    hne '\r' (by decide), hne '\x0b' (by decide), hne '\x0c' (by decide)]
  simp

theorem isWs_lowerChar (c : Char) : isWsChar (lowerChar c) = isWsChar c := by
  unfold lowerChar
  by_cases h : 65 ≤ c.toNat ∧ c.toNat ≤ 90
  · rw [if_pos h]
    have h2 : (Char.ofNat (c.toNat + 32)).toNat = c.toNat + 32 :=
      char_toNat_ofNat_valid _ (by omega)
    rw [isWs_false_of_toNat_large (by omega), isWs_false_of_toNat_large (by omega)]
  · rw [if_neg h]

theorem jsLower_idem (s : Str) : jsLower (jsLower s) = jsLower s := by
  unfold jsLower
  rw [List.map_map]
  exact List.map_congr_left (fun c _ => lowerChar_idem c)

theorem trimLeft_map_lower (s : Str) : trimLeft (jsLower s) = jsLower (trimLeft s) := by
  unfold trimLeft jsLower
  rw [List.dropWhile_map]
  have hfun : (isWsChar ∘ lowerChar) = isWsChar := by
    funext c
    simp [Function.comp_apply, isWs_lowerChar]
  rw [hfun]

theorem trimRight_cons (c : Char) (r : Str) :
    trimRight (c :: r) = if trimRight r = [] ∧ isWsChar c then [] else c :: trimRight r := rfl

theorem trimRight_map_lower (s : Str) : trimRight (jsLower s) = jsLower (trimRight s) := by
  induction s with
  | nil => rfl
  | cons c r ih =>
    show trimRight (lowerChar c :: jsLower r) = jsLower (trimRight (c :: r))
    rw [trimRight_cons, trimRight_cons, ih, isWs_lowerChar]
    by_cases h : trimRight r = [] ∧ isWsChar c = true
    · rw [if_pos h]
      rw [if_pos ⟨by rw [h.1]; rfl, h.2⟩]
      rfl
    · have h' : ¬(jsLower (trimRight r) = [] ∧ isWsChar c = true) := by
        intro ⟨h1, h2⟩
        exact h ⟨List.map_eq_nil_iff.mp h1, h2⟩
      rw [if_neg h', if_neg h]
      rfl

theorem jsTrim_map_lower (s : Str) : jsTrim (jsLower s) = jsLower (jsTrim s) := by
  unfold jsTrim
  rw [trimLeft_map_lower, trimRight_map_lower]

theorem dropWhile_idem (p : Char → Bool) (l : Str) :
    (l.dropWhile p).dropWhile p = l.dropWhile p := by
  induction l with
  | nil => rfl
  | cons c r ih =>
    by_cases h : p c
    · simp [List.dropWhile_cons, h, ih]
    · simp [List.dropWhile_cons, h]

theorem trimLeft_idem (s : Str) : trimLeft (trimLeft s) = trimLeft s :=
  dropWhile_idem _ s

theorem trimRight_idem (s : Str) : trimRight (trimRight s) = trimRight s := by
  induction s with
  | nil => rfl
  | cons c r ih =>
    rw [trimRight_cons]
    by_cases h : trimRight r = [] ∧ isWsChar c = true
    · rw [if_pos h]
      rfl
    · rw [if_neg h, trimRight_cons, ih, if_neg h]

theorem trimLeft_trimRight_of_fixed {s : Str} (h : trimLeft s = s) :
    trimLeft (trimRight s) = trimRight s := by
  cases s with
  | nil => rfl
  | cons c r =>
    have hc : isWsChar c = false := by
      by_contra hcc
      have hc' : isWsChar c = true := by
        cases hw : isWsChar c
        · exact absurd hw hcc
        · rfl
      have hdrop : trimLeft (c :: r) = trimLeft r := by
        simp [trimLeft, List.dropWhile_cons, hc']
      rw [h] at hdrop
      have hlen : (trimLeft r).length ≤ r.length :=
        (List.dropWhile_sublist isWsChar).length_le
      rw [← hdrop] at hlen
      simp at hlen
    rw [trimRight_cons, if_neg (by simp [hc])]
    simp [trimLeft, List.dropWhile_cons, hc]

theorem jsTrim_idem (s : Str) : jsTrim (jsTrim s) = jsTrim s := by
  unfold jsTrim
  rw [trimLeft_trimRight_of_fixed (trimLeft_idem s), trimRight_idem]

theorem normTok_idem (s : Str) : normTok (normTok s) = normTok s := by
  unfold normTok
  rw [jsTrim_map_lower, jsTrim_idem, jsLower_idem]

/-! ## Sorting lemmas -/

theorem strLt_asymm : ∀ a b : Str, strLt a b = true → strLt b a = false
  | _, [], h => by simp [strLt] at h
  | [], _ :: _, _ => by simp [strLt]
  | a :: as, b :: bs, h => by
    simp only [strLt] at h ⊢
    by_cases h1 : a.toNat < b.toNat
    · rw [if_neg (by omega), if_pos h1]
    · rw [if_neg h1] at h
      by_cases h2 : b.toNat < a.toNat
      · rw [if_pos h2] at h
        exact absurd h (by simp)
      · rw [if_neg h2] at h
        rw [if_neg h1, if_neg h2]
        exact strLt_asymm as bs h

theorem strLe_total (a b : Str) (h : strLe a b = false) : strLe b a = true := by
  unfold strLe at *
  cases hlt : strLt b a with
  | false => rw [hlt] at h; simp at h
  | true => simp [strLt_asymm _ _ hlt]

theorem sortedStrs_cons_of (y : Str) (l : List Str) (hs : sortedStrs l = true)
    (hhead : ∀ z, l.head? = some z → strLe y z = true) : sortedStrs (y :: l) = true := by
  cases l with
  | nil => rfl
  | cons z zs =>
    show (strLe y z && sortedStrs (z :: zs)) = true
    rw [hs, hhead z rfl]
    rfl

theorem sortedStrs_of_cons {y : Str} {l : List Str} (h : sortedStrs (y :: l) = true) :
    sortedStrs l = true := by
  cases l with
  | nil => rfl
  | cons z zs =>
    have := (Bool.and_eq_true _ _).mp h
    exact this.2

theorem head?_insertStr (x y : Str) (l : List Str) (h : (insertStr x l).head? = some y) :
    y = x ∨ l.head? = some y := by
  cases l with
  | nil => simp [insertStr] at h; exact Or.inl h.symm
  | cons z zs =>
    by_cases hle : strLe x z = true
    · simp [insertStr, hle] at h
      exact Or.inl h.symm
    · simp [insertStr, hle] at h
      exact Or.inr (by simp [h])

theorem sortedStrs_insertStr (x : Str) (l : List Str) (h : sortedStrs l = true) :
    sortedStrs (insertStr x l) = true := by
  induction l with
  | nil => rfl
  | cons y ys ih =>
    by_cases hle : strLe x y = true
    · show sortedStrs (if strLe x y then x :: y :: ys else y :: insertStr x ys) = true
      rw [if_pos hle]
      show (strLe x y && sortedStrs (y :: ys)) = true
      rw [hle, h]
      rfl
    · show sortedStrs (if strLe x y then x :: y :: ys else y :: insertStr x ys) = true
      rw [if_neg hle]
      apply sortedStrs_cons_of
      · exact ih (sortedStrs_of_cons h)
      · intro z hz
        have hxy : strLe x y = false := by
          cases hb : strLe x y
          · rfl
          · exact absurd hb hle
        rcases head?_insertStr x z ys hz with h | hz'
        · rw [h]
          exact strLe_total x y hxy
        · cases ys with
          | nil => simp at hz'
          | cons w ws =>
            simp at hz'
            subst hz'
            exact ((Bool.and_eq_true _ _).mp h).1

theorem sortedStrs_sortStrs (l : List Str) : sortedStrs (sortStrs l) = true := by
  induction l with
  | nil => rfl
  | cons x xs ih => exact sortedStrs_insertStr x (sortStrs xs) ih

theorem insertStr_perm (x : Str) (l : List Str) : (insertStr x l).Perm (x :: l) := by
  induction l with
  | nil => exact List.Perm.refl _
  | cons y ys ih =>
    by_cases hle : strLe x y = true
    · show List.Perm (if strLe x y then x :: y :: ys else y :: insertStr x ys) _
      rw [if_pos hle]
    · show List.Perm (if strLe x y then x :: y :: ys else y :: insertStr x ys) _
      rw [if_neg hle]
      exact (ih.cons y).trans (List.Perm.swap x y ys)

theorem sortStrs_perm (l : List Str) : (sortStrs l).Perm l := by
  induction l with
  | nil => exact List.Perm.refl _
  | cons x xs ih => exact (insertStr_perm x (sortStrs xs)).trans (ih.cons x)

theorem mem_sortStrs {a : Str} {l : List Str} : a ∈ sortStrs l ↔ a ∈ l :=
  (sortStrs_perm l).mem_iff

theorem nodup_sortStrs {l : List Str} : (sortStrs l).Nodup ↔ l.Nodup :=
  (sortStrs_perm l).nodup_iff

/-! ## Association-list lemmas -/

theorem lookupA_nil (k : Str) : lookupA [] k = none := rfl

theorem lookupA_cons (a : Str) (b : Option (List Str)) (o : JObj) (k : Str) :
    lookupA ((a, b) :: o) k = if a == k then some b else lookupA o k := by
  by_cases h : (a == k) = true
  · simp [lookupA, List.find?_cons_of_pos, h]
  · rw [if_neg h]
    simp only [lookupA]
    rw [List.find?_cons_of_neg]
    simpa using h

theorem memKey_eq_isSome_lookupA (o : JObj) (k : Str) :
    memKey o k = (lookupA o k).isSome := by
  simp [memKey, lookupA]

theorem lookupA_setA_self (o : JObj) (k : Str) (v : Option (List Str)) :
    lookupA (setA o k v) k = some v := by
  induction o with
  | nil => simp [setA, lookupA_cons]
  | cons e o ih =>
    obtain ⟨a, b⟩ := e
    by_cases h : (a == k) = true
    · simp [setA, h, lookupA_cons]
    · rw [show setA ((a, b) :: o) k v = (a, b) :: setA o k v by simp [setA, h]]
      rw [lookupA_cons, if_neg h]
      exact ih

theorem lookupA_setA_ne (o : JObj) (k k' : Str) (v : Option (List Str)) (h : k' ≠ k) :
    lookupA (setA o k v) k' = lookupA o k' := by
  induction o with
  | nil =>
    simp [setA, lookupA_cons, lookupA_nil]
    intro hk
    exact absurd hk.symm h
  | cons e o ih =>
    obtain ⟨a, b⟩ := e
    by_cases hak : (a == k) = true
    · have ha : a = k := by simpa using hak
      rw [show setA ((a, b) :: o) k v = (k, v) :: o by simp [setA, hak]]
      rw [lookupA_cons, lookupA_cons]
      rw [if_neg (by simpa using (fun hkk => h hkk.symm)), if_neg]
      simpa [ha] using (fun hkk => h hkk.symm)
    · rw [show setA ((a, b) :: o) k v = (a, b) :: setA o k v by simp [setA, hak]]
      rw [lookupA_cons, lookupA_cons, ih]

/-! ## Supporting lemmas for the claim theorems -/

theorem contains_eq_mem (l : List Str) (a : Str) : l.contains a = true ↔ a ∈ l :=
  List.elem_iff

theorem tokAlnum_semi : tokAlnum ';' = false := by decide

theorem subtypeChar_semi : subtypeChar ';' = false := by decide

theorem all_tokAlnum_false_of_semi {t : Str} (h : ';' ∈ t) : t.all tokAlnum = false := by
  rw [List.all_eq_false]
  exact ⟨';', h, by simp [tokAlnum_semi]⟩

theorem xPrefixed_false_of_semi : ∀ {t : Str}, ';' ∈ t → xPrefixed t = false
  | [], h => by simp at h
  | [c], h => rfl
  | c :: d :: rest, h => by
    rcases List.mem_cons.mp h with hc | h2
    · show ((c = 'x' || c = 'X') && _ && _ && _ && _) = false
      rw [← hc]
      simp
    · rcases List.mem_cons.mp h2 with hd | hr
      · show (_ && (d = '-') && _ && _ && _) = false
        rw [← hd]
        simp
      · show (_ && _ && _ && _ && rest.all tokAlnum) = false
        rw [all_tokAlnum_false_of_semi hr]
        simp

theorem formatType_false_of_semi {t : Str} (h : ';' ∈ t) : formatType t = false := by
  unfold formatType
  rw [xPrefixed_false_of_semi h, all_tokAlnum_false_of_semi h]
  simp

theorem formatMediaType_false_of_semi {s : Str} (h : ';' ∈ s) : formatMediaType s = false := by
  unfold formatMediaType
  split
  case h_2 => rfl
  case h_1 sub heq =>
    have hsplit : s.takeWhile (fun c => c ≠ '/') ++ ('/' :: sub) = s := by
      rw [← heq]
      exact List.takeWhile_append_dropWhile _ _
    have hmem : ';' ∈ s.takeWhile (fun c => c ≠ '/') ∨ ';' ∈ ('/' :: sub) := by
      rw [← hsplit] at h
      exact List.mem_append.mp h
    rcases hmem with ht | hsub
    · rw [formatType_false_of_semi ht]
      simp
    · rcases List.mem_cons.mp hsub with habs | hsub'
      · exact absurd habs (by decide)
      · have : sub.all subtypeChar = false := by
          rw [List.all_eq_false]
          exact ⟨';', hsub', by simp [subtypeChar_semi]⟩
        rw [this]
        simp

/-- C9 — counterexample.  The claim asserts the media-type validator accepts a
well-formed `type/subtype` token also when it carries parameters; but
`#formatMediaType` has no room for `;` or `=`, so `text/plain;charset=utf-8`
is rejected, and `set` raises the malformed-syntax error (SyntaxError) for it. -/
theorem c9_counterexample :
    formatMediaType "text/plain;charset=utf-8".data = false ∧
      jsSet ⟨[], [], [], []⟩ (.jstr "txt".data) (.jstr "text/plain;charset=utf-8".data) =
        .thrown ⟨.malformedError, "Invalid mediaType".data⟩ ∧
      jsDelete ⟨[], [], [], []⟩ (.jstr "txt".data) (.jstr "text/plain;charset=utf-8".data) =
        .thrown ⟨.malformedError, "Invalid mediaType".data⟩ := by
  refine ⟨by decide, by decide, by decide⟩

/-- C9 — amended claim.  The validator accepts only a bare `type/subtype`
token: any candidate containing `;` (in particular one carrying parameters
such as `;charset=...`) is rejected, and `set`/`delete` raise the
malformed-syntax error kind for it rather than coercing; nothing invalid is
silently accepted.  (Deduplication then compares the full trimmed, lowercased
token, which for accepted tokens coincides with the essence, as no accepted
token has parameters to strip.) -/
theorem c9_amended :
    ∀ (s : Str), ';' ∈ s →
      formatMediaType s = false ∧
      (∀ (st : MTState) (ext : Str), formatExtension ext = true →
        jsSet st (.jstr ext) (.jstr s) = .thrown ⟨.malformedError, "Invalid mediaType".data⟩ ∧
        jsDelete st (.jstr ext) (.jstr s) = .thrown ⟨.malformedError, "Invalid mediaType".data⟩) := by
  intro s hs
  refine ⟨formatMediaType_false_of_semi hs, ?_⟩
  intro st ext hext
  constructor
  · simp [jsSet, hext, formatMediaType_false_of_semi hs]
  · simp [jsDelete, hext, formatMediaType_false_of_semi hs]

/-- C9 — witness for the amended claim at `s = "text/plain;charset=utf-8"`,
`ext = "txt"`, on the empty registry. -/
theorem c9_amended_witness :
    formatMediaType "text/plain;charset=utf-8".data = false ∧
      jsSet ⟨[("txt".data, some ["text/html".data])], [], [], []⟩ (.jstr "txt".data)
        (.jstr "text/plain;charset=utf-8".data) =
        .thrown ⟨.malformedError, "Invalid mediaType".data⟩ :=
  ⟨(c9_amended "text/plain;charset=utf-8".data (by decide)).1,
    ((c9_amended "text/plain;charset=utf-8".data (by decide)).2
      ⟨[("txt".data, some ["text/html".data])], [], [], []⟩ "txt".data (by decide)).1⟩

/-- C8 — counterexample.  With both arguments simultaneously invalid (a number
for the extension and a number for the media type), `set` and `delete` throw
`TypeError('Invalid extension')` alone: the very same error as when the media
type is perfectly valid, so the raised error cannot be reporting the
media-type violation alongside the extension violation. -/
theorem c8_counterexample :
    jsSet ⟨[], [], [], []⟩ (.jnum 1) (.jnum 2) =
        .thrown ⟨.typeError, "Invalid extension".data⟩ ∧
      jsSet ⟨[], [], [], []⟩ (.jnum 1) (.jnum 2) =
        jsSet ⟨[], [], [], []⟩ (.jnum 1) (.jstr "text/plain".data) ∧
      jsDelete ⟨[], [], [], []⟩ (.jnum 1) (.jnum 2) =
        .thrown ⟨.typeError, "Invalid extension".data⟩ ∧
      jsDelete ⟨[], [], [], []⟩ (.jnum 1) (.jnum 2) =
        jsDelete ⟨[], [], [], []⟩ (.jnum 1) (.jstr "text/plain".data) := by
  refine ⟨by decide, by decide, by decide, by decide⟩

/-- C8 — amended claim.  Validation is sequential: when the extension argument
is invalid, `set` and `delete` throw the extension error alone — a `TypeError`
mentioning only the extension for a non-string, a `SyntaxError` mentioning
only the extension for a malformed string — and the media-type argument is
never examined, so the media-type violation goes unreported. -/
theorem c8_amended :
    ∀ (st : MTState) (mv : JsValue),
      (∀ (ev : JsValue), (∀ s, ev ≠ .jstr s) →
        jsSet st ev mv = .thrown ⟨.typeError, "Invalid extension".data⟩ ∧
        jsDelete st ev mv = .thrown ⟨.typeError, "Invalid extension".data⟩) ∧
      (∀ (s : Str), formatExtension s = false →
        jsSet st (.jstr s) mv = .thrown ⟨.malformedError, "Invalid extension".data⟩ ∧
        jsDelete st (.jstr s) mv = .thrown ⟨.malformedError, "Invalid extension".data⟩) := by
  intro st mv
  constructor
  · intro ev hev
    cases ev with
    | jstr s => exact absurd rfl (hev s)
    | jnum n => exact ⟨rfl, rfl⟩
    | jbool b => exact ⟨rfl, rfl⟩
    | jnull => exact ⟨rfl, rfl⟩
    | jundef => exact ⟨rfl, rfl⟩
  · intro s hs
    constructor
    · simp [jsSet, hs]
    · simp [jsDelete, hs]

/-- C8 — witness for the amended claim: a number extension with a number media
type throws the extension `TypeError`, and the malformed extension `"a.b"`
with a number media type throws the extension `SyntaxError`. -/
theorem c8_amended_witness :
    jsSet ⟨[], [], [], []⟩ (.jnum 3) (.jnum 4) =
        .thrown ⟨.typeError, "Invalid extension".data⟩ ∧
      jsSet ⟨[], [], [], []⟩ (.jstr "a.b".data) (.jnum 4) =
        .thrown ⟨.malformedError, "Invalid extension".data⟩ :=
  ⟨((c8_amended ⟨[], [], [], []⟩ (.jnum 4)).1 (.jnum 3) (by intro s h; cases h)).1,
    ((c8_amended ⟨[], [], [], []⟩ (.jnum 4)).2 "a.b".data (by decide)).1⟩

/-- The extension `get` derives from a path string, as the code computes it:
`parse(path).ext.replace('.', '').trim().toLowerCase()`. -/
def derivedExt (s : Str) : Str := normTok (removeFirstDot (posixExt s))

/-- C2 — `get(path)` throws `TypeError('Invalid path')` exactly on non-string
input, throws `SyntaxError('Invalid extension')` exactly on a string whose
derived extension fails `#formatExtension` (in particular `"fileName."`, whose
derived extension is empty), and otherwise returns the associated list — the
extension's entry when one exists, the empty list when none is associated. -/
theorem c2_lookup_errors :
    ∀ (st : MTState) (v : JsValue),
      ((jsGet st v = .thrown ⟨.typeError, "Invalid path".data⟩) ↔ ∀ s, v ≠ .jstr s) ∧
      ((jsGet st v = .thrown ⟨.malformedError, "Invalid extension".data⟩) ↔
        ∃ s, v = .jstr s ∧ formatExtension (derivedExt s) = false) ∧
      (∀ s, v = .jstr s → formatExtension (derivedExt s) = true →
        ∀ exts, lookupA st.mediaTypes (derivedExt s) = some (some exts) →
          jsGet st v = .ok exts) ∧
      (∀ s, v = .jstr s → formatExtension (derivedExt s) = true →
        lookupA st.mediaTypes (derivedExt s) = none → jsGet st v = .ok []) ∧
      (jsGet st (.jstr "fileName.".data) =
        .thrown ⟨.malformedError, "Invalid extension".data⟩) := by
  intro st v
  refine ⟨?_, ?_, ?_, ?_, ?_⟩
  · constructor
    · intro h s hv
      subst hv
      by_cases hf : formatExtension (derivedExt s) = true
      · simp [jsGet, derivedExt] at h
        rw [if_neg (by simp [derivedExt] at hf ⊢; exact hf)] at h
        exact absurd h (by simp)
      · have hf' : formatExtension (derivedExt s) = false := by
          cases hb : formatExtension (derivedExt s)
          · rfl
          · exact absurd hb hf
        simp only [jsGet] at h
        rw [if_pos (by simp [derivedExt] at hf' ⊢; simp [hf'])] at h
        simp at h
    · intro h
      cases v with
      | jstr s => exact absurd rfl (h s)
      | jnum n => rfl
      | jbool b => rfl
      | jnull => rfl
      | jundef => rfl
  · constructor
    · intro h
      cases v with
      | jstr s =>
        refine ⟨s, rfl, ?_⟩
        by_cases hf : formatExtension (derivedExt s) = true
        · simp only [jsGet] at h
          rw [if_neg (by simp [derivedExt] at hf ⊢; exact hf)] at h
          exact absurd h (by simp)
        · cases hb : formatExtension (derivedExt s)
          · rfl
          · exact absurd hb hf
      | jnum n => exact absurd h (by simp [jsGet])
      | jbool b => exact absurd h (by simp [jsGet])
      | jnull => exact absurd h (by simp [jsGet])
      | jundef => exact absurd h (by simp [jsGet])
    · rintro ⟨s, rfl, hf⟩
      simp only [jsGet]
      rw [if_pos (by simp [derivedExt] at hf ⊢; simp [hf])]
  · rintro s rfl hf exts hl
    simp only [jsGet]
    rw [if_neg (by simp [derivedExt] at hf ⊢; exact hf)]
    simp [derivedExt] at hl
    rw [hl]
    rfl
  · rintro s rfl hf hl
    simp only [jsGet]
    rw [if_neg (by simp [derivedExt] at hf ⊢; exact hf)]
    simp [derivedExt] at hl
    rw [hl]
    rfl
  · simp only [jsGet]
    rw [if_pos (by decide)]

/-- C2 — witness: the typed conjuncts applied at concrete inputs: the path
`"photo.JPG"` on a registry where `jpg` maps to `image/jpeg`, and the path
`"README"` (no extension, so the derived extension is empty and malformed). -/
theorem c2_lookup_errors_witness :
    jsGet ⟨[("jpg".data, some ["image/jpeg".data])], [], [], []⟩ (.jstr "photo.JPG".data) =
        .ok ["image/jpeg".data] ∧
      jsGet ⟨[("jpg".data, some ["image/jpeg".data])], [], [], []⟩ (.jstr "doc.pdf".data) =
        .ok [] ∧
      jsGet ⟨[], [], [], []⟩ (.jnum 7) = .thrown ⟨.typeError, "Invalid path".data⟩ :=
  ⟨(c2_lookup_errors ⟨[("jpg".data, some ["image/jpeg".data])], [], [], []⟩
      (.jstr "photo.JPG".data)).2.2.1 _ rfl (by decide) _ (by decide),
    (c2_lookup_errors ⟨[("jpg".data, some ["image/jpeg".data])], [], [], []⟩
      (.jstr "doc.pdf".data)).2.2.2.1 _ rfl (by decide) (by decide),
    ((c2_lookup_errors ⟨[], [], [], []⟩ (.jnum 7)).1.mpr (by intro s h; cases h))⟩

theorem setA_append_of_absent (o : JObj) (k : Str) (v : Option (List Str))
    (h : lookupA o k = none) : setA o k v = o ++ [(k, v)] := by
  induction o with
  | nil => rfl
  | cons e o ih =>
    obtain ⟨a, b⟩ := e
    rw [lookupA_cons] at h
    by_cases hk : (a == k) = true
    · rw [if_pos hk] at h
      simp at h
    · rw [if_neg hk] at h
      simp [setA, hk, ih h]

/-- `#updateList` on the one-key content `{E: [m]}` when the normalized key is
different from `E` and absent from the registry: `content[ext]` reads
`undefined`, so the registry gains the normalized key with value `undefined`. -/
theorem updateList_single_miss_absent (reg : JObj) (E m : Str)
    (hne : (E == normTok E) = false) (habs : lookupA reg (normTok E) = none) :
    updateList reg [(E, some [m])] =
      .ok (reg ++ [(normTok E, none)]) [(normTok E, none)] := by
  have hmem : memKey reg (normTok E) = false := by
    rw [memKey_eq_isSome_lookupA, habs]
    rfl
  have hcontent : lookupA [(E, some [m])] (normTok E) = none := by
    rw [lookupA_cons, if_neg (by simp [hne]), lookupA_nil]
  unfold updateList
  show updateListGo [(E, some [m])] reg [] [(E, some [m])] = _
  simp only [updateListGo, hmem, hcontent]
  rw [if_neg (by simp)]
  rw [show ((none : Option (Option (List Str))).join) = none from rfl]
  rw [setA_append_of_absent reg (normTok E) none habs]
  rfl

/-- `#updateList` on the one-key content `{E: [m]}` when the normalized key is
different from `E` but present in the registry: `content[ext]` reads
`undefined` and `.forEach` throws. -/
theorem updateList_single_miss_present (reg : JObj) (E m : Str) (x : Option (List Str))
    (hne : (E == normTok E) = false) (hpres : lookupA reg (normTok E) = some x) :
    updateList reg [(E, some [m])] = .thrown undefErr reg := by
  have hmem : memKey reg (normTok E) = true := by
    rw [memKey_eq_isSome_lookupA, hpres]
    rfl
  have hcontent : lookupA [(E, some [m])] (normTok E) = none := by
    rw [lookupA_cons, if_neg (by simp [hne]), lookupA_nil]
  unfold updateList
  show updateListGo [(E, some [m])] reg [] [(E, some [m])] = _
  simp only [updateListGo, hmem, hcontent]
  rw [if_pos (by simp)]

/-- C10 — counterexample.  The claim says `set("TXT", "text/plain")` on an
empty registry inserts the association under `txt` and returns false; in fact
the merge indexes the one-key content object with the lowercased key, reads
`undefined`, and stores *that*: the registry gains `txt ↦ undefined` with no
media types at all (and when the lowercased key already exists, the same read
makes `.forEach` throw a `TypeError` instead of returning at all). -/
theorem c10_counterexample :
    jsSet ⟨[], [], [], []⟩ (.jstr "TXT".data) (.jstr "text/plain".data) =
        .ok ⟨⟨[("txt".data, none)], [], [], []⟩, false, false⟩ ∧
      lookupA [("txt".data, none)] "txt".data = some none ∧
      jsSet ⟨[("txt".data, some ["text/html".data])], [], [], []⟩
        (.jstr "TXT".data) (.jstr "text/plain".data) = .thrown undefErr := by
  refine ⟨by decide, by decide, by decide⟩

/-- C10 — amended claim.  For a valid extension whose normalized (lowercased)
form differs from it and any valid media type: if the normalized key is absent,
`set` appends that key with value `undefined` — not the association — returns
false (the membership test uses the raw key) and does not persist; if the
normalized key is present, `set` throws a `TypeError` because the merge reads
`content[lowercased]`, which is `undefined`. -/
theorem c10_amended :
    ∀ (st : MTState) (E m : Str),
      formatExtension E = true → normTok E ≠ E → formatMediaType m = true →
      ((lookupA st.mediaTypes (normTok E) = none →
        jsSet st (.jstr E) (.jstr m) =
          .ok ⟨{ st with mediaTypes := st.mediaTypes ++ [(normTok E, none)] }, false, false⟩) ∧
        (∀ x, lookupA st.mediaTypes (normTok E) = some x →
          jsSet st (.jstr E) (.jstr m) = .thrown undefErr)) := by
  intro st E m hE hne hm
  have hbeq : (E == normTok E) = false := by
    rw [beq_eq_false_iff_ne]
    exact fun h => hne h.symm
  have hbeq' : (normTok E == E) = false := by
    rw [beq_eq_false_iff_ne]
    exact hne
  constructor
  · intro habs
    have hdelta : memKey [(normTok E, none)] E = false := by
      simp [memKey, List.find?, hbeq']
    simp [jsSet, hE, hm, updateList_single_miss_absent st.mediaTypes E m hbeq habs, hdelta]
  · intro x hpres
    simp [jsSet, hE, hm, updateList_single_miss_present st.mediaTypes E m x hbeq hpres]

/-- C10 — witness for the amended claim at `E = "TXT"`, `m = "text/plain"` on
the empty registry (absent branch) and on a registry owning `txt` (present
branch). -/
theorem c10_amended_witness :
    jsSet ⟨[], [], [], []⟩ (.jstr "TXT".data) (.jstr "text/plain".data) =
        .ok ⟨⟨[("txt".data, none)], [], [], []⟩, false, false⟩ ∧
      jsSet ⟨[("txt".data, some ["text/html".data])], [], [], []⟩
        (.jstr "TXT".data) (.jstr "text/plain".data) = .thrown undefErr :=
  ⟨(c10_amended ⟨[], [], [], []⟩ "TXT".data "text/plain".data (by decide) (by decide)
      (by decide)).1 (by decide),
    (c10_amended ⟨[("txt".data, some ["text/html".data])], [], [], []⟩ "TXT".data
      "text/plain".data (by decide) (by decide) (by decide)).2
      (some ["text/html".data]) (by decide)⟩

/-- `#updateList` on the already-normalized one-key content `{E: ms}` with `E`
absent: the key is created with the incoming array stored verbatim. -/
theorem updateList_single_absent (reg : JObj) (E : Str) (ms : List Str) (hEn : normTok E = E)
    (habs : lookupA reg E = none) :
    updateList reg [(E, some ms)] = .ok (reg ++ [(E, some ms)]) [(E, some ms)] := by
  have hmem : memKey reg (normTok E) = false := by
    rw [hEn, memKey_eq_isSome_lookupA, habs]
    rfl
  have hcontent : lookupA [(E, some ms)] (normTok E) = some (some ms) := by
    rw [hEn, lookupA_cons, if_pos (by simp)]
  unfold updateList
  show updateListGo [(E, some ms)] reg [] [(E, some ms)] = _
  simp only [updateListGo, hmem, hcontent]
  rw [if_neg (by simp)]
  rw [show ((some (some ms) : Option (Option (List Str))).join) = some ms from rfl]
  rw [hEn, setA_append_of_absent reg E (some ms) habs]
  rfl

/-- `#updateList` on the already-normalized one-key content `{E: [m]}` when the
registry already holds `E ↦ l` and `m ∈ l`: the duplicate is skipped, nothing
changes, and the delta is empty. -/
theorem updateList_single_dup (reg : JObj) (E m : Str) (l : List Str) (hEn : normTok E = E)
    (hMn : normTok m = m) (hpres : lookupA reg E = some (some l)) (hmem : m ∈ l) :
    updateList reg [(E, some [m])] = .ok reg [] := by
  have hkey : memKey reg E = true := by
    rw [memKey_eq_isSome_lookupA, hpres]
    rfl
  have hcontent : lookupA [(E, some [m])] E = some (some [m]) := by
    rw [lookupA_cons, if_pos (by simp)]
  have hcont : l.contains m = true := (contains_eq_mem l m).mpr hmem
  unfold updateList
  show updateListGo [(E, some [m])] reg [] [(E, some [m])] = _
  simp only [updateListGo, hEn, hkey, hcontent, mergeTypes, hMn, hpres, hcont]
  rfl

/-- `#updateList` on the already-normalized one-key content `{E: [m]}` when the
registry already holds `E ↦ l` and `m ∉ l`: `m` is appended, the array is
re-sorted, and the delta reports the genuinely new insertion. -/
theorem updateList_single_new (reg : JObj) (E m : Str) (l : List Str) (hEn : normTok E = E)
    (hMn : normTok m = m) (hpres : lookupA reg E = some (some l)) (hmem : m ∉ l) :
    updateList reg [(E, some [m])] =
      .ok (setA reg E (some (sortStrs (l ++ [m])))) [(E, some [m])] := by
  have hkey : memKey reg E = true := by
    rw [memKey_eq_isSome_lookupA, hpres]
    rfl
  have hcontent : lookupA [(E, some [m])] E = some (some [m]) := by
    rw [lookupA_cons, if_pos (by simp)]
  have hcont : l.contains m = false := by
    cases hb : l.contains m
    · rfl
    · exact absurd ((contains_eq_mem l m).mp hb) hmem
  unfold updateList
  show updateListGo [(E, some [m])] reg [] [(E, some [m])] = _
  simp only [updateListGo, hEn, hkey, hcontent, mergeTypes, hMn, hpres, hcont]
  rfl

/-- C1 — counterexample.  With the valid (uppercase) media type `"IMAGE/PNG"`
and a fresh extension, the first `set` stores the raw, un-normalized string, so
the second call with the very same (essence-equivalent) media type does not
find its normalized form, inserts again, and returns `true` a second time —
and it also mutates the registry. -/
theorem c1_counterexample :
    jsSet ⟨[], [], [], []⟩ (.jstr "png".data) (.jstr "IMAGE/PNG".data) =
        .ok ⟨⟨[("png".data, some ["IMAGE/PNG".data])], [], [], []⟩, true, true⟩ ∧
      jsSet ⟨[("png".data, some ["IMAGE/PNG".data])], [], [], []⟩
        (.jstr "png".data) (.jstr "IMAGE/PNG".data) =
        .ok ⟨⟨[("png".data, some ["IMAGE/PNG".data, "image/png".data])], [], [], []⟩,
          true, true⟩ := by
  refine ⟨by decide, by decide⟩

/-- C1 — amended claim.  For a valid extension and media type that are both
already normalized (trimmed and lowercase) and whose association is not yet in
the registry, calling `set` twice in succession returns `true` then `false`,
the second call leaves the registry unchanged, and only the first call
persists the snapshot. -/
theorem c1_amended :
    ∀ (st : MTState) (E M : Str),
      formatExtension E = true → normTok E = E →
      formatMediaType M = true → normTok M = M →
      (lookupA st.mediaTypes E = none ∨
        ∃ l, lookupA st.mediaTypes E = some (some l) ∧ M ∉ l) →
      ∃ st1 : MTState,
        jsSet st (.jstr E) (.jstr M) = .ok ⟨st1, true, true⟩ ∧
        jsSet st1 (.jstr E) (.jstr M) = .ok ⟨st1, false, false⟩ := by
  intro st E M hE hEn hM hMn habsent
  have hdelta : memKey [(E, some [M])] E = true := by
    simp [memKey, List.find?]
  rcases habsent with habs | ⟨l, hpres, hnot⟩
  · refine ⟨{ st with mediaTypes := st.mediaTypes ++ [(E, some [M])] }, ?_, ?_⟩
    · simp [jsSet, hE, hM, updateList_single_absent st.mediaTypes E [M] hEn habs, hdelta]
    · have hlook : lookupA (st.mediaTypes ++ [(E, some [M])]) E = some (some [M]) := by
        rw [← setA_append_of_absent st.mediaTypes E (some [M]) habs]
        exact lookupA_setA_self st.mediaTypes E (some [M])
      simp [jsSet, hE, hM,
        updateList_single_dup (st.mediaTypes ++ [(E, some [M])]) E M [M] hEn hMn hlook
          (List.mem_singleton.mpr rfl),
        memKey]
  · refine ⟨{ st with mediaTypes := setA st.mediaTypes E (some (sortStrs (l ++ [M]))) }, ?_, ?_⟩
    · simp [jsSet, hE, hM, updateList_single_new st.mediaTypes E M l hEn hMn hpres hnot, hdelta]
    · have hlook : lookupA (setA st.mediaTypes E (some (sortStrs (l ++ [M])))) E =
          some (some (sortStrs (l ++ [M]))) := lookupA_setA_self _ _ _
      have hmem2 : M ∈ sortStrs (l ++ [M]) :=
        mem_sortStrs.mpr (List.mem_append.mpr (Or.inr (List.mem_singleton.mpr rfl)))
      simp [jsSet, hE, hM,
        updateList_single_dup _ E M (sortStrs (l ++ [M])) hEn hMn hlook hmem2, memKey]

/-- C1 — witness for the amended claim at `E = "png"`, `M = "image/png"` on the
empty registry. -/
theorem c1_amended_witness :
    ∃ st1 : MTState,
      jsSet ⟨[], [], [], []⟩ (.jstr "png".data) (.jstr "image/png".data) =
          .ok ⟨st1, true, true⟩ ∧
        jsSet st1 (.jstr "png".data) (.jstr "image/png".data) = .ok ⟨st1, false, false⟩ :=
  c1_amended ⟨[], [], [], []⟩ "png".data "image/png".data (by decide) (by decide)
    (by decide) (by decide) (Or.inl (by decide))

/-- The inner merge loop keeps an existing extension's entry present; the entry
ends up sorted unless it was left untouched, and exact-duplicate-freedom is
preserved (each appended media type was absent as an exact string, and
`Array.prototype.sort` permutes). -/
theorem mergeTypes_spec (ext : Str) :
    ∀ (ms : List Str) (reg delta : JObj) (l : List Str),
      lookupA reg ext = some (some l) →
      ∃ reg' delta' v, mergeTypes ext reg delta ms = .ok reg' delta' ∧
        lookupA reg' ext = some (some v) ∧
        (v = l ∨ sortedStrs v = true) ∧ (l.Nodup → v.Nodup) := by
  intro ms
  induction ms with
  | nil =>
    intro reg delta l hl
    exact ⟨reg, delta, l, rfl, hl, Or.inl rfl, fun h => h⟩
  | cons m rest ih =>
    intro reg delta l hl
    by_cases hc : l.contains (normTok m) = true
    · obtain ⟨reg', delta', v, hrun, hv, hsort, hnd⟩ := ih reg delta l hl
      refine ⟨reg', delta', v, ?_, hv, hsort, hnd⟩
      simp only [mergeTypes, hl, hc]
      exact hrun
    · have hcf : l.contains (normTok m) = false := by
        cases hb : l.contains (normTok m)
        · rfl
        · exact absurd hb hc
      have hnotin : normTok m ∉ l := fun hmem => hc ((contains_eq_mem _ _).mpr hmem)
      have hl' : lookupA (setA reg ext (some (sortStrs (l ++ [normTok m])))) ext =
          some (some (sortStrs (l ++ [normTok m]))) := lookupA_setA_self _ _ _
      obtain ⟨reg', delta', v, hrun, hv, hsort, hnd⟩ := ih _ _ _ hl'
      refine ⟨reg', delta', v, ?_, hv, ?_, ?_⟩
      · simp only [mergeTypes, hl, hcf]
        exact hrun
      · right
        rcases hsort with hveq | hvs
        · rw [hveq]
          exact sortedStrs_sortStrs _
        · exact hvs
      · intro hlnd
        apply hnd
        rw [nodup_sortStrs]
        simp [List.nodup_append, hlnd, hnotin]

/-- C3 — counterexample.  Two real synchronization cycles starting from the
empty registry violate the claimed invariant: a fresh extension key stores the
parsed fragment verbatim, so `png ↦ ["z/b", "z/a"]` is left unsorted, and a
document naming the same association twice leaves the same essence stored
twice (`png ↦ ["image/png", "image/png"]`). -/
theorem c3_counterexample :
    (update false
        ⟨some ⟨200, some "v1".data⟩, some ⟨some "v1".data, ("z/b png\n" ++ "z/a png").data⟩⟩
        ⟨none, none⟩ ⟨none, none⟩ ⟨[], [], [], []⟩ =
        .ok ⟨⟨[("png".data, some ["z/b".data, "z/a".data])], "v1".data, [], []⟩, true,
          some [("png".data, ["z/b".data, "z/a".data])],
          some [("png".data, ["z/b".data, "z/a".data])]⟩ ∧
      sortedStrs ["z/b".data, "z/a".data] = false) ∧
      (update false
        ⟨some ⟨200, some "v1".data⟩,
          some ⟨some "v1".data, ("image/png png\n" ++ "image/png png").data⟩⟩
        ⟨none, none⟩ ⟨none, none⟩ ⟨[], [], [], []⟩ =
        .ok ⟨⟨[("png".data, some ["image/png".data, "image/png".data])], "v1".data, [], []⟩,
          true, some [("png".data, ["image/png".data])],
          some [("png".data, ["image/png".data])]⟩ ∧
      ¬ (["image/png".data, "image/png".data] : List Str).Nodup) := by
  refine ⟨⟨by decide, by decide⟩, by decide, by decide⟩

/-- C3 — amended claim.  After a merge through `#updateList` with a normalized
one-key fragment: a *fresh* extension key stores the incoming array verbatim —
in that order, so it need not be sorted nor free of essence duplicates — while
an *existing* extension key's array is re-sorted whenever the merge touches it
(and left exactly as it was otherwise), with deduplication performed only by
exact comparison of the normalized incoming string against the stored strings,
preserving exact-duplicate-freedom. -/
theorem c3_amended :
    ∀ (reg : JObj) (k : Str) (ms : List Str),
      normTok k = k →
      ((lookupA reg k = none →
        updateList reg [(k, some ms)] = .ok (reg ++ [(k, some ms)]) [(k, some ms)]) ∧
       (∀ l, lookupA reg k = some (some l) →
        ∃ reg' delta' v, updateList reg [(k, some ms)] = .ok reg' delta' ∧
          lookupA reg' k = some (some v) ∧
          (v = l ∨ sortedStrs v = true) ∧ (l.Nodup → v.Nodup))) := by
  intro reg k ms hkn
  constructor
  · intro habs
    exact updateList_single_absent reg k ms hkn habs
  · intro l hl
    have hkey : memKey reg k = true := by
      rw [memKey_eq_isSome_lookupA, hl]
      rfl
    have hcontent : lookupA [(k, some ms)] k = some (some ms) := by
      rw [lookupA_cons, if_pos (by simp)]
    obtain ⟨reg', delta', v, hrun, hv, hsort, hnd⟩ := mergeTypes_spec k ms reg [] l hl
    refine ⟨reg', delta', v, ?_, hv, hsort, hnd⟩
    unfold updateList
    show updateListGo [(k, some ms)] reg [] [(k, some ms)] = _
    simp only [updateListGo, hkn, hkey, hcontent, hrun]
    rw [if_pos trivial]

/-- C3 — witness for the amended claim at a fresh key (`png`) and at an
existing key (`txt ↦ ["text/z", "text/a"]` merged with `"text/m"`). -/
theorem c3_amended_witness :
    updateList [] [("png".data, some ["z/b".data, "z/a".data])] =
        .ok [("png".data, some ["z/b".data, "z/a".data])]
          [("png".data, some ["z/b".data, "z/a".data])] ∧
      ∃ reg' delta' v,
        updateList [("txt".data, some ["text/z".data, "text/a".data])]
            [("txt".data, some ["text/m".data])] = .ok reg' delta' ∧
          lookupA reg' "txt".data = some (some v) ∧
          (v = ["text/z".data, "text/a".data] ∨ sortedStrs v = true) ∧
          (["text/z".data, "text/a".data].Nodup → v.Nodup) :=
  ⟨(c3_amended [] "png".data ["z/b".data, "z/a".data] (by decide)).1 (by decide),
    (c3_amended [("txt".data, some ["text/z".data, "text/a".data])] "txt".data
      ["text/m".data] (by decide)).2 ["text/z".data, "text/a".data] (by decide)⟩

theorem lookupA_delKey_self (o : JObj) (k : Str) : lookupA (delKey o k) k = none := by
  induction o with
  | nil => rfl
  | cons e o ih =>
    obtain ⟨a, b⟩ := e
    by_cases hk : (a == k) = true
    · simp only [delKey, List.filter]
      rw [show (a != k) = false by simp [bne, hk]]
      exact ih
    · simp only [delKey, List.filter]
      rw [show (a != k) = true by simp [bne]; simpa using hk]
      rw [lookupA_cons, if_neg hk]
      exact ih

/-- C7 — for valid arguments: `delete` on an absent association (missing key,
or key present without the normalized media type) returns `false` and leaves
both the registry and the snapshot untouched; on a present association it
removes exactly that entry — dropping the extension key entirely when its
array empties — returns `true`, and writes the snapshot. -/
theorem c7_delete :
    ∀ (st : MTState) (E m : Str),
      formatExtension E = true → formatMediaType m = true →
      ((lookupA st.mediaTypes (normTok E) = none →
        jsDelete st (.jstr E) (.jstr m) = .ok ⟨st, false, false⟩) ∧
       (∀ l, lookupA st.mediaTypes (normTok E) = some (some l) → normTok m ∉ l →
        jsDelete st (.jstr E) (.jstr m) = .ok ⟨st, false, false⟩) ∧
       (∀ l, lookupA st.mediaTypes (normTok E) = some (some l) → normTok m ∈ l → l.Nodup →
        ∃ st1, jsDelete st (.jstr E) (.jstr m) = .ok ⟨st1, true, true⟩ ∧
          ((l.erase (normTok m)).isEmpty = true →
            lookupA st1.mediaTypes (normTok E) = none) ∧
          ((l.erase (normTok m)).isEmpty = false →
            lookupA st1.mediaTypes (normTok E) = some (some (l.erase (normTok m)))) ∧
          (∀ v, lookupA st1.mediaTypes (normTok E) = some (some v) → normTok m ∉ v))) := by
  intro st E m hE hm
  refine ⟨?_, ?_, ?_⟩
  · intro habs
    simp [jsDelete, hE, hm, habs]
  · intro l hl hnot
    have hcf : l.contains (normTok m) = false := by
      cases hb : l.contains (normTok m)
      · rfl
      · exact absurd ((contains_eq_mem _ _).mp hb) hnot
    simp [jsDelete, hE, hm, hl, hcf, hnot]
  · intro l hl hmem hnd
    have hct : l.contains (normTok m) = true := (contains_eq_mem _ _).mpr hmem
    by_cases hem : (l.erase (normTok m)).isEmpty = true
    · refine ⟨{ st with mediaTypes := delKey st.mediaTypes (normTok E) }, ?_, ?_, ?_, ?_⟩
      · simp [jsDelete, hE, hm, hl, hct, hem, hmem]
      · intro _
        exact lookupA_delKey_self st.mediaTypes (normTok E)
      · intro hne
        exact absurd hem (by simp [hne])
      · intro v hv
        rw [lookupA_delKey_self st.mediaTypes (normTok E)] at hv
        cases hv
    · have hem' : (l.erase (normTok m)).isEmpty = false := by
        cases hb : (l.erase (normTok m)).isEmpty
        · rfl
        · exact absurd hb hem
      refine ⟨{ st with mediaTypes := setA st.mediaTypes (normTok E) (some (l.erase (normTok m))) }, ?_, ?_, ?_, ?_⟩
      · simp [jsDelete, hE, hm, hl, hct, hem', hmem]
      · intro habs
        exact absurd habs (by simp [hem'])
      · intro _
        exact lookupA_setA_self _ _ _
      · intro v hv
        rw [lookupA_setA_self] at hv
        have hveq : v = l.erase (normTok m) := by
          injection hv with hv1
          injection hv1 with hv2
          exact hv2.symm
        rw [hveq]
        exact hnd.not_mem_erase

/-- C7 — witness: deleting the absent `text/css` from `txt ↦ [text/plain]`
returns false and changes nothing; deleting the present `text/plain` (via the
uppercase extension `"TXT"`, which `delete` does lowercase) removes the last
entry, drops the key, and returns true. -/
theorem c7_delete_witness :
    jsDelete ⟨[("txt".data, some ["text/plain".data])], [], [], []⟩
        (.jstr "txt".data) (.jstr "text/css".data) =
        .ok ⟨⟨[("txt".data, some ["text/plain".data])], [], [], []⟩, false, false⟩ ∧
      ∃ st1, jsDelete ⟨[("txt".data, some ["text/plain".data])], [], [], []⟩
          (.jstr "TXT".data) (.jstr "text/plain".data) = .ok ⟨st1, true, true⟩ ∧
        ((["text/plain".data].erase (normTok "text/plain".data)).isEmpty = true →
          lookupA st1.mediaTypes (normTok "TXT".data) = none) :=
  ⟨(c7_delete ⟨[("txt".data, some ["text/plain".data])], [], [], []⟩ "txt".data
      "text/css".data (by decide) (by decide)).2.1 ["text/plain".data] (by decide) (by decide),
    by
      obtain ⟨st1, h1, h2, _, _⟩ :=
        (c7_delete ⟨[("txt".data, some ["text/plain".data])], [], [], []⟩ "TXT".data
          "text/plain".data (by decide) (by decide)).2.2 ["text/plain".data] (by decide)
          (by decide) (by decide)
      exact ⟨st1, h1, h2⟩⟩

/-! ## The parsers produce normalized, defined content -/

/-- Every key of a parsed fragment is its own normalization (the parsers insert
only `extension.trim().toLowerCase()` keys). -/
def contentNorm (c : List (Str × List Str)) : Prop := ∀ kv ∈ c, normTok kv.1 = kv.1

theorem contentNorm_nil : contentNorm [] := by
  intro kv h
  cases h

theorem pushAssoc_norm {c : List (Str × List Str)} {k : Str} (v : Str)
    (hc : contentNorm c) (hk : normTok k = k) : contentNorm (pushAssoc c k v) := by
  intro kv hkv
  unfold pushAssoc at hkv
  by_cases hmem : (c.find? (fun kv => kv.1 == k)).isSome = true
  · rw [if_pos hmem] at hkv
    obtain ⟨kv0, hkv0, heq⟩ := List.mem_map.mp hkv
    have : kv.1 = kv0.1 := by
      by_cases hb : (kv0.1 == k) = true
      · rw [← heq]
        simp [hb]
      · rw [← heq]
        simp [hb]
    rw [this]
    exact hc kv0 hkv0
  · rw [if_neg hmem] at hkv
    rcases List.mem_append.mp hkv with h | h
    · exact hc kv h
    · rcases List.mem_singleton.mp h with rfl
      exact hk

theorem foldl_exts_norm (mt : Str) :
    ∀ (es : List Str) (acc : List (Str × List Str)), contentNorm acc →
      contentNorm (es.foldl
        (fun c e =>
          let e' := normTok e
          if formatExtension e' then pushAssoc c e' mt else c) acc) := by
  intro es
  induction es with
  | nil => intro acc h; exact h
  | cons e rest ih =>
    intro acc h
    simp only [List.foldl_cons]
    by_cases hf : formatExtension (normTok e) = true
    · rw [if_pos hf]
      exact ih _ (pushAssoc_norm mt h (normTok_idem e))
    · rw [if_neg hf]
      exact ih _ h

theorem lineStep_norm {acc : List (Str × List Str)} (l : Str) (h : contentNorm acc) :
    contentNorm (lineStep acc l) := by
  unfold lineStep
  cases parseLine l with
  | none => exact h
  | some p =>
    by_cases hf : formatMediaType (normTok p.1) = true
    · simp only [hf, if_pos]
      exact foldl_exts_norm (normTok p.1) (splitWs p.2) acc h
    · simp only [hf]
      rw [if_neg (by simp [hf])]
      exact h

theorem foldl_lineStep_norm :
    ∀ (ls : List Str) (acc : List (Str × List Str)), contentNorm acc →
      contentNorm (ls.foldl lineStep acc) := by
  intro ls
  induction ls with
  | nil => intro acc h; exact h
  | cons l rest ih =>
    intro acc h
    exact ih _ (lineStep_norm l h)

theorem parseTable_norm (body : Str) : contentNorm (parseTable body) :=
  foldl_lineStep_norm _ [] contentNorm_nil

theorem loadApache_norm (r : FullRes) : contentNorm (loadApache r).content :=
  parseTable_norm r.body

theorem loadDebian_norm (r : FullRes) : contentNorm (loadDebian r).content :=
  parseTable_norm r.body

theorem loadNGINX_norm (r : FullRes) : contentNorm (loadNGINX r).content :=
  parseTable_norm (nginxStrip r.body)

/-! ## The merge never throws on well-formed registry and parser content -/

theorem wfObj_toJObj (c : List (Str × List Str)) : wfObj (toJObj c) = true := by
  induction c with
  | nil => rfl
  | cons kv rest ih => simpa [toJObj, wfObj] using (by simpa [toJObj, wfObj] using ih)

theorem lookupA_isSome_of_wf {o : JObj} (hwf : wfObj o = true) {k : Str}
    {x : Option (List Str)} (h : lookupA o k = some x) : x.isSome = true := by
  induction o with
  | nil => cases h
  | cons e o ih =>
    obtain ⟨a, b⟩ := e
    have hb : b.isSome = true ∧ wfObj o = true := by
      simpa [wfObj] using hwf
    rw [lookupA_cons] at h
    by_cases hk : (a == k) = true
    · rw [if_pos hk] at h
      injection h with h1
      rw [← h1]
      exact hb.1
    · rw [if_neg hk] at h
      exact ih hb.2 h

theorem wfObj_setA {o : JObj} (k : Str) {v : Option (List Str)} (hwf : wfObj o = true)
    (hv : v.isSome = true) : wfObj (setA o k v) = true := by
  induction o with
  | nil => simpa [setA, wfObj] using hv
  | cons e o ih =>
    obtain ⟨a, b⟩ := e
    have hb : b.isSome = true ∧ wfObj o = true := by
      simpa [wfObj] using hwf
    by_cases hk : (a == k) = true
    · rw [show setA ((a, b) :: o) k v = (k, v) :: o by simp [setA, hk]]
      simpa [wfObj, hv] using hb.2
    · rw [show setA ((a, b) :: o) k v = (a, b) :: setA o k v by simp [setA, hk]]
      simpa [wfObj, hb.1] using ih hb.2

theorem lookupA_key_of_mem {o : JObj} {k : Str} {v : Option (List Str)}
    (h : (k, v) ∈ o) : ∃ x, lookupA o k = some x := by
  induction o with
  | nil => cases h
  | cons e o ih =>
    obtain ⟨a, b⟩ := e
    by_cases hk : (a == k) = true
    · exact ⟨b, by rw [lookupA_cons, if_pos hk]⟩
    · rcases List.mem_cons.mp h with heq | hmem
      · have : a = k := by
          injection heq with h1 h2
          rw [h1]
        exact absurd (by simp [this]) hk
      · obtain ⟨x, hx⟩ := ih hmem
        exact ⟨x, by rw [lookupA_cons, if_neg hk, hx]⟩

theorem mergeTypes_ok (ext : Str) :
    ∀ (ms : List Str) (reg delta : JObj), wfObj reg = true → memKey reg ext = true →
      ∃ reg' delta', mergeTypes ext reg delta ms = .ok reg' delta' ∧
        wfObj reg' = true ∧ memKey reg' ext = true := by
  intro ms
  induction ms with
  | nil =>
    intro reg delta hwf hmem
    exact ⟨reg, delta, rfl, hwf, hmem⟩
  | cons m rest ih =>
    intro reg delta hwf hmem
    rw [memKey_eq_isSome_lookupA] at hmem
    rcases hx : lookupA reg ext with _ | x
    · rw [hx] at hmem
      cases hmem
    · have hxs := lookupA_isSome_of_wf hwf hx
      rcases x with _ | l
      · cases hxs
      · by_cases hc : l.contains (normTok m) = true
        · obtain ⟨reg', delta', hrun, hwf', hmem'⟩ :=
            ih reg delta hwf (by rw [memKey_eq_isSome_lookupA, hx]; rfl)
          refine ⟨reg', delta', ?_, hwf', hmem'⟩
          simp only [mergeTypes, hx, hc]
          exact hrun
        · have hcf : l.contains (normTok m) = false := by
            cases hb : l.contains (normTok m)
            · rfl
            · exact absurd hb hc
          have hwf2 : wfObj (setA reg ext (some (sortStrs (l ++ [normTok m])))) = true :=
            wfObj_setA ext hwf rfl
          have hmem2 : memKey (setA reg ext (some (sortStrs (l ++ [normTok m])))) ext = true := by
            rw [memKey_eq_isSome_lookupA, lookupA_setA_self]
            rfl
          obtain ⟨reg', delta', hrun, hwf', hmem'⟩ := ih _ _ hwf2 hmem2
          refine ⟨reg', delta', ?_, hwf', hmem'⟩
          simp only [mergeTypes, hx, hcf]
          exact hrun

theorem updateListGo_ok (content : JObj)
    (hcontent : ∀ kv ∈ content, ∃ arr, lookupA content (normTok kv.1) = some (some arr)) :
    ∀ (entries : List (Str × Option (List Str))), (∀ kv ∈ entries, kv ∈ content) →
      ∀ (reg delta : JObj), wfObj reg = true →
        ∃ reg' delta', updateListGo content reg delta entries = .ok reg' delta' ∧
          wfObj reg' = true := by
  intro entries
  induction entries with
  | nil =>
    intro _ reg delta hwf
    exact ⟨reg, delta, rfl, hwf⟩
  | cons kv rest ih =>
    intro hsub reg delta hwf
    obtain ⟨k, v⟩ := kv
    obtain ⟨arr, harr⟩ := hcontent (k, v) (hsub _ (List.mem_cons_self _ _))
    by_cases hmem : memKey reg (normTok k) = true
    · obtain ⟨reg1, delta1, hrun, hwf1, _⟩ :=
        mergeTypes_ok (normTok k) arr reg delta hwf hmem
      obtain ⟨reg', delta', hrun', hwf'⟩ :=
        ih (fun kv h => hsub kv (List.mem_cons_of_mem _ h)) reg1 delta1 hwf1
      refine ⟨reg', delta', ?_, hwf'⟩
      simp only [updateListGo, hmem, harr, hrun]
      exact hrun'
    · have hmemf : memKey reg (normTok k) = false := by
        cases hb : memKey reg (normTok k)
        · rfl
        · exact absurd hb hmem
      have hwf1 : wfObj (setA reg (normTok k) (some arr)) = true := wfObj_setA _ hwf rfl
      obtain ⟨reg', delta', hrun', hwf'⟩ :=
        ih (fun kv h => hsub kv (List.mem_cons_of_mem _ h)) _ _ hwf1
      refine ⟨reg', delta', ?_, hwf'⟩
      simp only [updateListGo, hmemf, harr]
      rw [if_neg (by simp)]
      rw [show ((some (some arr) : Option (Option (List Str))).join) = some arr from rfl]
      exact hrun'

theorem updateList_ok (reg : JObj) (c : List (Str × List Str)) (hwf : wfObj reg = true)
    (hn : contentNorm c) :
    ∃ reg' delta, updateList reg (toJObj c) = .ok reg' delta ∧ wfObj reg' = true := by
  have hcontent : ∀ kv ∈ toJObj c, ∃ arr, lookupA (toJObj c) (normTok kv.1) = some (some arr) := by
    intro kv hkv
    obtain ⟨kv0, hkv0, heq⟩ := List.mem_map.mp hkv
    have hk : normTok kv.1 = kv.1 := by
      rw [← heq]
      exact hn kv0 hkv0
    rw [hk]
    have hmem : (kv.1, kv.2) ∈ toJObj c := by
      rw [show (kv.1, kv.2) = kv from rfl]
      exact hkv
    obtain ⟨x, hx⟩ := lookupA_key_of_mem hmem
    have := lookupA_isSome_of_wf (wfObj_toJObj c) hx
    rcases x with _ | arr
    · cases this
    · exact ⟨arr, hx⟩
  exact updateListGo_ok (toJObj c) hcontent (toJObj c) (fun kv h => h) reg [] hwf

/-! ## Per-source acceptance and the synchronization-cycle theorems -/

/-- The acceptance test `update` applies to one settled source: the body fetch
must have succeeded, the fragment's version token must be present and
non-empty, and its content map non-empty.  Returns the token that will be
stored on acceptance. -/
def srcAcceptTag (sv : SettledVal) (load : FullRes → LoadRes) : Option Str :=
  match sv with
  | .fetched r =>
    match (load r).version with
    | some v => if !v.isEmpty && !(load r).content.isEmpty then some v else none
    | none => none
  | _ => none

theorem mergeSource_spec (st : MTState) (sv : SettledVal) (load : FullRes → LoadRes)
    (setVer : MTState → Str → MTState) (hwf : wfObj st.mediaTypes = true)
    (hnorm : ∀ r, contentNorm (load r).content)
    (hsv : ∀ s v, (setVer s v).mediaTypes = s.mediaTypes) :
    ∃ st' d, mergeSource st sv load setVer = .ok (st', d) ∧ wfObj st'.mediaTypes = true ∧
      ((srcAcceptTag sv load = none ∧ st' = st ∧ d = none) ∨
       (∃ v delta, srcAcceptTag sv load = some v ∧ d = some delta ∧
         ∃ reg, st' = { setVer st v with mediaTypes := reg })) := by
  cases sv with
  | rejected => exact ⟨st, none, rfl, hwf, Or.inl ⟨rfl, rfl, rfl⟩⟩
  | skipped => exact ⟨st, none, rfl, hwf, Or.inl ⟨rfl, rfl, rfl⟩⟩
  | fetched r =>
    rcases hver : (load r).version with _ | v
    · refine ⟨st, none, ?_, hwf, Or.inl ⟨?_, rfl, rfl⟩⟩
      · simp only [mergeSource, hver]
      · simp only [srcAcceptTag, hver]
    · by_cases hcond : (!v.isEmpty && !(load r).content.isEmpty) = true
      · have hwf1 : wfObj (setVer st v).mediaTypes = true := by
          rw [hsv]
          exact hwf
        obtain ⟨reg, delta, hrun, hwf'⟩ :=
          updateList_ok (setVer st v).mediaTypes (load r).content hwf1 (hnorm r)
        refine ⟨{ setVer st v with mediaTypes := reg }, some delta, ?_, hwf',
          Or.inr ⟨v, delta, ?_, rfl, reg, rfl⟩⟩
        · simp only [mergeSource, hver, hcond, if_pos, hrun]
        · simp only [srcAcceptTag, hver, hcond, if_pos]
      · have hcondf : (!v.isEmpty && !(load r).content.isEmpty) = false := by
          cases hb : (!v.isEmpty && !(load r).content.isEmpty)
          · rfl
          · exact absurd hb hcond
        refine ⟨st, none, ?_, hwf, Or.inl ⟨?_, rfl, rfl⟩⟩
        · simp only [mergeSource, hver, hcondf]
          rfl
        · simp only [srcAcceptTag, hver, hcondf]
          rfl

/-- C5 — during one synchronization cycle, each source's stored version token
is replaced by the newly fetched token exactly when that source's fragment was
accepted (body fetch succeeded, parse produced a non-empty version token and a
non-empty content map); otherwise — including a fragment with no version token
or an empty content map — the stored token is left unchanged. -/
theorem c5_version_tokens :
    ∀ (force : Bool) (inA inD inN : SrcInput) (st : MTState),
      wfObj st.mediaTypes = true →
      ∃ out, update force inA inD inN st = .ok out ∧
        out.state.vApache =
          (srcAcceptTag (settle force st.vApache inA) loadApache).getD st.vApache ∧
        out.state.vDebian =
          (srcAcceptTag (settle force st.vDebian inD) loadDebian).getD st.vDebian ∧
        out.state.vNginx =
          (srcAcceptTag (settle force st.vNginx inN) loadNGINX).getD st.vNginx := by
  intro force inA inD inN st hwf
  obtain ⟨st1, d1, h1, hwf1, hc1⟩ :=
    mergeSource_spec st (settle force st.vApache inA) loadApache
      (fun s v => { s with vApache := v }) hwf loadApache_norm (fun s v => rfl)
  obtain ⟨st2, d2, h2, hwf2, hc2⟩ :=
    mergeSource_spec st1 (settle force st.vDebian inD) loadDebian
      (fun s v => { s with vDebian := v }) hwf1 loadDebian_norm (fun s v => rfl)
  obtain ⟨st3, d3, h3, hwf3, hc3⟩ :=
    mergeSource_spec st2 (settle force st.vNginx inN) loadNGINX
      (fun s v => { s with vNginx := v }) hwf2 loadNGINX_norm (fun s v => rfl)
  have hv1 : st1.vApache = (srcAcceptTag (settle force st.vApache inA) loadApache).getD st.vApache ∧
      st1.vDebian = st.vDebian ∧ st1.vNginx = st.vNginx := by
    rcases hc1 with ⟨ha, rfl, _⟩ | ⟨v, delta, ha, _, reg, rfl⟩
    · rw [ha]
      exact ⟨rfl, rfl, rfl⟩
    · rw [ha]
      exact ⟨rfl, rfl, rfl⟩
  have hv2 : st2.vDebian = (srcAcceptTag (settle force st.vDebian inD) loadDebian).getD st1.vDebian ∧
      st2.vApache = st1.vApache ∧ st2.vNginx = st1.vNginx := by
    rcases hc2 with ⟨ha, rfl, _⟩ | ⟨v, delta, ha, _, reg, rfl⟩
    · rw [ha]
      exact ⟨rfl, rfl, rfl⟩
    · rw [ha]
      exact ⟨rfl, rfl, rfl⟩
  have hv3 : st3.vNginx = (srcAcceptTag (settle force st.vNginx inN) loadNGINX).getD st2.vNginx ∧
      st3.vApache = st2.vApache ∧ st3.vDebian = st2.vDebian := by
    rcases hc3 with ⟨ha, rfl, _⟩ | ⟨v, delta, ha, _, reg, rfl⟩
    · rw [ha]
      exact ⟨rfl, rfl, rfl⟩
    · rw [ha]
      exact ⟨rfl, rfl, rfl⟩
  by_cases hde : ([d1, d2, d3].filterMap id).isEmpty = true
  · refine ⟨⟨st3, false, none, none⟩, ?_, ?_, ?_, ?_⟩
    · simp only [update, h1, h2, h3]
      rw [if_pos hde]
    · rw [hv3.2.1, hv2.2.1, hv1.1]
    · rw [hv3.2.2, hv2.1, hv1.2.1]
    · rw [hv3.1, hv2.2.2, hv1.2.2]
  · refine ⟨⟨st3, true, some (aggregateDeltas ([d1, d2, d3].filterMap id)),
      some (aggregateDeltas ([d1, d2, d3].filterMap id))⟩, ?_, ?_, ?_, ?_⟩
    · simp only [update, h1, h2, h3]
      rw [if_neg (by simp [hde])]
    · rw [hv3.2.1, hv2.2.1, hv1.1]
    · rw [hv3.2.2, hv2.1, hv1.2.1]
    · rw [hv3.1, hv2.2.2, hv1.2.2]

/-- C5 — witness: a cycle in which apache is accepted with token `a1`, debian
rejects (network failure) and nginx's probe declines: the stored apache token
becomes `a1`, the other two stay put. -/
theorem c5_version_tokens_witness :
    wfObj ([("txt".data, some ["text/plain".data])] : JObj) = true ∧
      ∃ out, update false
          ⟨some ⟨200, some "a1".data⟩, some ⟨some "a1".data, "image/jpeg jpg".data⟩⟩
          ⟨none, none⟩ ⟨some ⟨200, some "n0".data⟩, none⟩
          ⟨[("txt".data, some ["text/plain".data])], "a0".data, "d0".data, "n0".data⟩ =
          .ok out ∧
        out.state.vApache = "a1".data ∧ out.state.vDebian = "d0".data ∧
        out.state.vNginx = "n0".data := by
  refine ⟨by decide, ?_⟩
  obtain ⟨out, hout, hA, hD, hN⟩ :=
    c5_version_tokens false
      ⟨some ⟨200, some "a1".data⟩, some ⟨some "a1".data, "image/jpeg jpg".data⟩⟩
      ⟨none, none⟩ ⟨some ⟨200, some "n0".data⟩, none⟩
      ⟨[("txt".data, some ["text/plain".data])], "a0".data, "d0".data, "n0".data⟩ (by decide)
  refine ⟨out, hout, ?_, ?_, ?_⟩
  · rw [hA]
    decide
  · rw [hD]
    decide
  · rw [hN]
    decide

/-- C4 — counterexample.  A cycle in which apache's fragment is accepted (fresh
token `a1`, non-empty content `"text/plain txt"`) but merges nothing new: the
claim says no persistence happens and the `'update'` notification only fires
with a non-empty delta, yet the code writes the snapshot and emits the event
with the empty object `{}` as payload. -/
theorem c4_counterexample :
    update false
        ⟨some ⟨200, some "a1".data⟩, some ⟨some "a1".data, "text/plain txt".data⟩⟩
        ⟨none, none⟩ ⟨none, none⟩
        ⟨[("txt".data, some ["text/plain".data])], "a0".data, [], []⟩ =
      .ok ⟨⟨[("txt".data, some ["text/plain".data])], "a1".data, [], []⟩,
        true, some [], some []⟩ := by
  decide

/-- C4 — amended claim.  When *no source's fragment is accepted*, `update`
resolves to `null` without writing the snapshot and without emitting; but
whenever at least one fragment is accepted the snapshot is written and the
`'update'` event fires with the aggregated delta as payload — even when that
delta is empty because nothing genuinely new was merged. -/
theorem c4_amended :
    ∀ (force : Bool) (inA inD inN : SrcInput) (st : MTState),
      wfObj st.mediaTypes = true →
      ∃ out, update force inA inD inN st = .ok out ∧
        ((srcAcceptTag (settle force st.vApache inA) loadApache = none ∧
          srcAcceptTag (settle force st.vDebian inD) loadDebian = none ∧
          srcAcceptTag (settle force st.vNginx inN) loadNGINX = none) →
          out = ⟨st, false, none, none⟩) ∧
        (out.result = none ↔
          (srcAcceptTag (settle force st.vApache inA) loadApache = none ∧
           srcAcceptTag (settle force st.vDebian inD) loadDebian = none ∧
           srcAcceptTag (settle force st.vNginx inN) loadNGINX = none)) ∧
        (∀ agg, out.result = some agg → out.wrote = true ∧ out.emitted = some agg) := by
  intro force inA inD inN st hwf
  obtain ⟨st1, d1, h1, hwf1, hc1⟩ :=
    mergeSource_spec st (settle force st.vApache inA) loadApache
      (fun s v => { s with vApache := v }) hwf loadApache_norm (fun s v => rfl)
  obtain ⟨st2, d2, h2, hwf2, hc2⟩ :=
    mergeSource_spec st1 (settle force st.vDebian inD) loadDebian
      (fun s v => { s with vDebian := v }) hwf1 loadDebian_norm (fun s v => rfl)
  obtain ⟨st3, d3, h3, hwf3, hc3⟩ :=
    mergeSource_spec st2 (settle force st.vNginx inN) loadNGINX
      (fun s v => { s with vNginx := v }) hwf2 loadNGINX_norm (fun s v => rfl)
  have hd1 : d1 = none ↔ srcAcceptTag (settle force st.vApache inA) loadApache = none := by
    rcases hc1 with ⟨ha, _, rfl⟩ | ⟨v, delta, ha, rfl, _⟩
    · simp [ha]
    · simp [ha]
  have hd2 : d2 = none ↔ srcAcceptTag (settle force st.vDebian inD) loadDebian = none := by
    rcases hc2 with ⟨ha, _, rfl⟩ | ⟨v, delta, ha, rfl, _⟩
    · simp [ha]
    · simp [ha]
  have hd3 : d3 = none ↔ srcAcceptTag (settle force st.vNginx inN) loadNGINX = none := by
    rcases hc3 with ⟨ha, _, rfl⟩ | ⟨v, delta, ha, rfl, _⟩
    · simp [ha]
    · simp [ha]
  have hst1 : d1 = none → st1 = st := by
    intro hd
    rcases hc1 with ⟨_, rfl, _⟩ | ⟨v, delta, _, hds, _⟩
    · rfl
    · rw [hds] at hd
      cases hd
  have hst2 : d2 = none → st2 = st1 := by
    intro hd
    rcases hc2 with ⟨_, rfl, _⟩ | ⟨v, delta, _, hds, _⟩
    · rfl
    · rw [hds] at hd
      cases hd
  have hst3 : d3 = none → st3 = st2 := by
    intro hd
    rcases hc3 with ⟨_, rfl, _⟩ | ⟨v, delta, _, hds, _⟩
    · rfl
    · rw [hds] at hd
      cases hd
  by_cases hde : ([d1, d2, d3].filterMap id).isEmpty = true
  · have hall : d1 = none ∧ d2 = none ∧ d3 = none := by
      rcases d1 with _ | x1
      · rcases d2 with _ | x2
        · rcases d3 with _ | x3
          · exact ⟨rfl, rfl, rfl⟩
          · simp [List.filterMap] at hde
        · simp [List.filterMap] at hde
      · simp [List.filterMap] at hde
    refine ⟨⟨st3, false, none, none⟩, ?_, ?_, ?_, ?_⟩
    · simp only [update, h1, h2, h3]
      rw [if_pos hde]
    · intro _
      rw [hst3 hall.2.2, hst2 hall.2.1, hst1 hall.1]
    · simp only [true_iff]
      exact ⟨hd1.mp hall.1, hd2.mp hall.2.1, hd3.mp hall.2.2⟩
    · intro agg h
      cases h
  · refine ⟨⟨st3, true, some (aggregateDeltas ([d1, d2, d3].filterMap id)),
      some (aggregateDeltas ([d1, d2, d3].filterMap id))⟩, ?_, ?_, ?_, ?_⟩
    · simp only [update, h1, h2, h3]
      rw [if_neg (by simp [hde])]
    · intro ⟨ha1, ha2, ha3⟩
      exact absurd (by simp [List.filterMap, hd1.mpr ha1, hd2.mpr ha2, hd3.mpr ha3]) hde
    · constructor
      · intro h
        cases h
      · intro ⟨ha1, ha2, ha3⟩
        exact absurd (by simp [List.filterMap, hd1.mpr ha1, hd2.mpr ha2, hd3.mpr ha3]) hde
    · intro agg h
      injection h with h
      rw [h]
      exact ⟨rfl, rfl⟩

/-- C4 — witness: a cycle where nothing is accepted (all probes reject)
resolves to `null` with no write, no event, and an unchanged state. -/
theorem c4_amended_witness :
    ∃ out, update false ⟨none, none⟩ ⟨none, none⟩ ⟨none, none⟩
        ⟨[("txt".data, some ["text/plain".data])], "a0".data, "d0".data, "n0".data⟩ =
        .ok out ∧
      out = ⟨⟨[("txt".data, some ["text/plain".data])], "a0".data, "d0".data, "n0".data⟩,
        false, none, none⟩ := by
  obtain ⟨out, hout, hempty, _, _⟩ :=
    c4_amended false ⟨none, none⟩ ⟨none, none⟩ ⟨none, none⟩
      ⟨[("txt".data, some ["text/plain".data])], "a0".data, "d0".data, "n0".data⟩ (by decide)
  exact ⟨out, hout, hempty ⟨by decide, by decide, by decide⟩⟩

/-- Modelled from the spec's words (§4.3 step 2, claim C6): perform the body
fetch when the probe succeeded with status 200 and (`force` is true, or the
returned version token differs from the stored one, or no prior stored token
exists). -/
def specProbeFetchCond (force : Bool) (stored : Str) (p : ProbeRes) : Bool :=
  p.status == 200 &&
    (force ||
      (match p.etag with
        | some t => t != stored
        | none => false) ||
      stored.isEmpty)

/-- C6 — counterexample.  With no prior stored token (`''`), `force = false`
and a probe that answers 200 *without* a version token, the claim's condition
("…or no prior stored token exists") demands a body fetch, but the code's gate
requires a truthy etag and performs none. -/
theorem c6_counterexample :
    wantsBody false [] ⟨200, none⟩ = false ∧
      specProbeFetchCond false [] ⟨200, none⟩ = true := by
  refine ⟨by decide, by decide⟩

/-- C6 — amended claim.  The body fetch of a source is performed iff the probe
returned status 200 and (`force` is true, or the probe's version token is
present, non-empty, and differs from the stored token) — with a fresh (empty)
stored token this still requires a present probe token; and with `force=false`
and every probe returning exactly the stored token, no body fetch happens and
the whole cycle resolves to `null` with no write, no event, and an unchanged
state. -/
theorem c6_amended :
    (∀ (force : Bool) (stored : Str) (p : ProbeRes),
      wantsBody force stored p = true ↔
        (p.status = 200 ∧
          (force = true ∨ ∃ t, p.etag = some t ∧ t ≠ [] ∧ t ≠ stored))) ∧
    (∀ (st : MTState) (fA fD fN : Option FullRes),
      wantsBody false st.vApache ⟨200, some st.vApache⟩ = false ∧
      wantsBody false st.vDebian ⟨200, some st.vDebian⟩ = false ∧
      wantsBody false st.vNginx ⟨200, some st.vNginx⟩ = false ∧
      update false ⟨some ⟨200, some st.vApache⟩, fA⟩ ⟨some ⟨200, some st.vDebian⟩, fD⟩
        ⟨some ⟨200, some st.vNginx⟩, fN⟩ st = .ok ⟨st, false, none, none⟩) := by
  constructor
  · intro force stored p
    cases hp : p.etag with
    | none =>
      simp [wantsBody, hp]
    | some t =>
      simp only [wantsBody, hp]
      rw [Bool.and_eq_true, Bool.or_eq_true]
      constructor
      · rintro ⟨h200, hf | ht⟩
        · exact ⟨by simpa using h200, Or.inl hf⟩
        · rw [Bool.and_eq_true] at ht
          refine ⟨by simpa using h200, Or.inr ⟨t, rfl, ?_, ?_⟩⟩
          · intro he
            rw [he] at ht
            simp at ht
          · have h2 := ht.2
            simpa [bne] using h2
      · rintro ⟨h200, hf | ⟨t', ht', hne, hns⟩⟩
        · exact ⟨by simpa using h200, Or.inl hf⟩
        · injection ht' with ht'
          subst ht'
          refine ⟨by simpa using h200, Or.inr ?_⟩
          rw [Bool.and_eq_true]
          constructor
          · simpa using hne
          · simpa [bne] using hns
  · intro st fA fD fN
    have hwb : ∀ s : Str, wantsBody false s ⟨200, some s⟩ = false := by
      intro s
      simp [wantsBody]
    have hsettle : ∀ (s : Str) (f : Option FullRes),
        settle false s ⟨some ⟨200, some s⟩, f⟩ = .skipped := by
      intro s f
      simp [settle, hwb s]
    refine ⟨hwb _, hwb _, hwb _, ?_⟩
    have hm1 : mergeSource st (settle false st.vApache ⟨some ⟨200, some st.vApache⟩, fA⟩)
        loadApache (fun s v => { s with vApache := v }) = .ok (st, none) := by
      rw [hsettle]
      rfl
    have hm2 : mergeSource st (settle false st.vDebian ⟨some ⟨200, some st.vDebian⟩, fD⟩)
        loadDebian (fun s v => { s with vDebian := v }) = .ok (st, none) := by
      rw [hsettle]
      rfl
    have hm3 : mergeSource st (settle false st.vNginx ⟨some ⟨200, some st.vNginx⟩, fN⟩)
        loadNGINX (fun s v => { s with vNginx := v }) = .ok (st, none) := by
      rw [hsettle]
      rfl
    simp only [update, hm1, hm2, hm3]
    rw [if_pos (by decide)]

/-- C6 — witness: the probe gate at concrete inputs (a changed token fetches,
an unchanged one does not) and the unchanged-token cycle on a concrete state. -/
theorem c6_amended_witness :
    wantsBody false "v0".data ⟨200, some "v1".data⟩ = true ∧
      update false ⟨some ⟨200, some "a0".data⟩, none⟩ ⟨some ⟨200, some "d0".data⟩, none⟩
        ⟨some ⟨200, some "n0".data⟩, none⟩
        ⟨[("txt".data, some ["text/plain".data])], "a0".data, "d0".data, "n0".data⟩ =
        .ok ⟨⟨[("txt".data, some ["text/plain".data])], "a0".data, "d0".data, "n0".data⟩,
          false, none, none⟩ :=
  ⟨(c6_amended.1 false "v0".data ⟨200, some "v1".data⟩).mpr
      ⟨rfl, Or.inr ⟨"v1".data, rfl, by decide, by decide⟩⟩,
    (c6_amended.2 ⟨[("txt".data, some ["text/plain".data])], "a0".data, "d0".data, "n0".data⟩
      none none none).2.2.2⟩
